import Mathlib

/-!
Verification development for the `clear` reflective-writing editor
(`src/main.ts`).  Strings are modelled as `List Char`; the helpers below are
shallow embeddings of the TypeScript functions of the same names.  DOM-side
effects (span insertion, caret movement) are out of scope; the pure range
computations that drive them are embedded in full.
-/

namespace Clear

/-- Character class of the JavaScript regex `\s` (ECMAScript WhiteSpace and
LineTerminator), used by `normalizeForMatch`, `buildNormalizedMap`, `trim`
and the word splitters. -/
def isSpace (c : Char) : Bool :=
  let n := c.toNat
  n = 32 || n = 9 || n = 10 || n = 11 || n = 12 || n = 13 ||
  n = 0xa0 || n = 0x1680 || (0x2000 ≤ n && n ≤ 0x200a) ||
  n = 0x2028 || n = 0x2029 || n = 0x202f || n = 0x205f ||
  n = 0x3000 || n = 0xfeff

/-- Character class `[.,;:!?]` of `stripTrailingPunctuation`. -/
def isPunct (c : Char) : Bool :=
  c = '.' || c = ',' || c = ';' || c = ':' || c = '!' || c = '?'

/-- Character class `[\s"'“”«»]` of `stripQuotes`
(whitespace, straight double and single quotes, curly double quotes,
guillemets). -/
def isQuoteWs (c : Char) : Bool :=
  isSpace c || c.toNat = 34 || c.toNat = 39 || c.toNat = 0x201c ||
  c.toNat = 0x201d || c.toNat = 0xab || c.toNat = 0xbb

/-- Left part of `String.prototype.trim`: drop leading whitespace. -/
def trimLeft (l : List Char) : List Char := l.dropWhile isSpace

/-- Right part of `String.prototype.trim`: drop trailing whitespace. -/
def trimRight (l : List Char) : List Char := (l.reverse.dropWhile isSpace).reverse

/-- JavaScript `String.prototype.trim` (the ECMAScript trim set coincides
with `\s`). -/
def trim (l : List Char) : List Char := trimRight (trimLeft l)

/-- The whitespace-collapsing pass of `normalizeForMatch` /
`buildNormalizedMap`: every maximal whitespace run becomes one space
(`replace(/\s+/g, " ")`).  The flag records whether the previous character
was whitespace. -/
def collapseAux : List Char → Bool → List Char
  | [], _ => []
  | c :: rest, lastWS =>
    if isSpace c then
      if lastWS then collapseAux rest true
      else ' ' :: collapseAux rest true
    else c :: collapseAux rest false

/-- Whitespace collapse of a whole string (initial flag false). -/
def collapseWS (l : List Char) : List Char := collapseAux l false

/-- The `replace(/\r\n?/g, "\n")` pre-pass of `normalizeForMatch`:
a carriage return together with an immediately following line feed — or
alone — becomes a single line feed. -/
def normalizeNewlines : List Char → List Char
  | [] => []
  | [c] => if c = '\r' then ['\n'] else [c]
  | c :: c2 :: rest =>
    if c = '\r' then
      if c2 = '\n' then '\n' :: normalizeNewlines rest
      else '\n' :: normalizeNewlines (c2 :: rest)
    else c :: normalizeNewlines (c2 :: rest)

/-- `normalizeForMatch`: normalize line endings, collapse whitespace, trim. -/
def normalizeForMatch (s : List Char) : List Char :=
  trim (collapseWS (normalizeNewlines s))

/-- `stripTrailingPunctuation`: `s.replace(/[.,;:!?]+$/, "").trim()`. -/
def stripTrailingPunctuation (s : List Char) : List Char :=
  trim (s.reverse.dropWhile isPunct).reverse

/-- The bare `word.replace(/[.,;:!?]+$/, "")` used in the `findRanges`
fallback (no trailing `trim`). -/
def stripPunctNoTrim (s : List Char) : List Char :=
  (s.reverse.dropWhile isPunct).reverse

/-- `stripQuotes`: drop the leading and the trailing run of
quote-or-whitespace characters, then trim. -/
def stripQuotes (s : List Char) : List Char :=
  trim ((s.dropWhile isQuoteWs).reverse.dropWhile isQuoteWs).reverse

/-- Leftmost-occurrence search, the model of `String.prototype.indexOf`
(`none` for the JavaScript result `-1`). -/
def firstIndexOf? : List Char → List Char → Option Nat
  | hay, needle =>
    if needle.isPrefixOf hay then some 0
    else
      match hay with
      | [] => none
      | _ :: t => (firstIndexOf? t needle).map Nat.succ

/-- Worker loop of `buildNormalizedMap`.  Walks the text from original
index `i` with the `lastWasSpace` flag, producing the kept characters
paired with the original index recorded for them (`origStart`). -/
def bnmAux : List Char → Nat → Bool → List (Char × Nat)
  | [], _, _ => []
  | c :: rest, i, lastWS =>
    if isSpace c then
      if lastWS then bnmAux rest (i + 1) true
      else (' ', i) :: bnmAux rest (i + 1) true
    else (c, i) :: bnmAux rest (i + 1) false

/-- `buildNormalizedMap`: the normalized text together with the map from
normalized index to original start index. -/
def buildNormalizedMap (text : List Char) : List Char × List Nat :=
  ((bnmAux text 0 false).map Prod.fst, (bnmAux text 0 false).map Prod.snd)

/-- Split on `/\s+/` and drop empty pieces, as every
`split(/\s+/).filter(Boolean)` call site does.  `cur` is the current word,
reversed. -/
def wordsOfAux : List Char → List Char → List (List Char)
  | [], cur => if cur = [] then [] else [cur.reverse]
  | c :: rest, cur =>
    if isSpace c then
      if cur = [] then wordsOfAux rest []
      else cur.reverse :: wordsOfAux rest []
    else wordsOfAux rest (c :: cur)

/-- Whitespace-separated words of a string. -/
def wordsOf (l : List Char) : List (List Char) := wordsOfAux l []

/-- `words.slice(0, k).join(" ")`, the phrase builder of
`findLongestPhraseInText`. -/
def joinSpace : List (List Char) → List Char
  | [] => []
  | [w] => w
  | w :: rest => w ++ ' ' :: joinSpace rest

/-- One search tier of `findSentenceRange`: look for `cand` in the
normalized text and keep the pair `(idx, matchLen)` on success
(a `some` models `idx >= 0`). -/
def tierSearch (normalized cand : List Char) : Option (Nat × Nat) :=
  (firstIndexOf? normalized cand).map (fun i => (i, cand.length))

/-- The guarded retry tiers of `findSentenceRange` and
`findLongestPhraseInText`: retry with a stripped candidate only when the
previous tier failed and the stripped candidate is non-empty. -/
def tierOrElse (prev : Option (Nat × Nat)) (normalized cand : List Char) :
    Option (Nat × Nat) :=
  match prev with
  | some r => some r
  | none => if cand = [] then none else tierSearch normalized cand

/-- Translate a normalized hit `(idx, matchLen)` back to original offsets,
with the `endNorm > origStart.length` guard of the source. -/
def toOrigRange (origStart : List Nat) (idx matchLen : Nat) :
    Option (Nat × Nat) :=
  let endNorm := idx + matchLen
  if origStart.length < endNorm then none
  else some (origStart.getD idx 0, origStart.getD (endNorm - 1) 0 + 1)

/-- Loop of `findLongestPhraseInText`: try the word-prefix phrases of
length `k, k-1, ..., 1` (the first argument is the current `k`); a hit with
positive length and a valid normalized end wins, otherwise shrink. -/
def flpAux (words : List (List Char)) (normalized : List Char)
    (origStart : List Nat) : Nat → Option (Nat × Nat)
  | 0 => none
  | k + 1 =>
    let phrase := joinSpace (words.take (k + 1))
    let found := tierOrElse (tierSearch normalized phrase) normalized
      (stripTrailingPunctuation phrase)
    match found with
    | some (idx, matchLen) =>
      if 0 < matchLen then
        if idx + matchLen ≤ origStart.length then
          some (origStart.getD idx 0, origStart.getD (idx + matchLen - 1) 0 + 1)
        else flpAux words normalized origStart k
      else flpAux words normalized origStart k
    | none => flpAux words normalized origStart k

/-- `findLongestPhraseInText`: longest word-prefix phrase of the sentence
that appears in the normalized text. -/
def findLongestPhraseInText (sentence normalized : List Char)
    (origStart : List Nat) : Option (Nat × Nat) :=
  flpAux (wordsOf sentence) normalized origStart (wordsOf sentence).length

/-- `findSentenceRange`: tiered search for the first occurrence of
`sentence` in `text`, returning original-text offsets. -/
def findSentenceRange (text sentence : List Char) : Option (Nat × Nat) :=
  let raw := normalizeForMatch sentence
  if raw = [] then none
  else
    let nm := buildNormalizedMap text
    let normalized := nm.1
    let origStart := nm.2
    if origStart = [] then none
    else
      let t1 := tierSearch normalized raw
      let t2 := tierOrElse t1 normalized (stripTrailingPunctuation raw)
      let t3 := tierOrElse t2 normalized (stripQuotes raw)
      let t4 := tierOrElse t3 normalized
        (stripTrailingPunctuation (stripQuotes raw))
      match t4 with
      | none => findLongestPhraseInText raw normalized origStart
      | some (idx, matchLen) => toOrigRange origStart idx matchLen

/-- The word scan of the `findRanges` degenerate-input fallback: first word
whose punctuation-stripped form has length at least 3 and occurs literally
in the raw text. -/
def fallbackScan (text : List Char) : List (List Char) → Option (Nat × Nat)
  | [] => none
  | w :: ws =>
    let clean := stripPunctNoTrim w
    if clean.length < 3 then fallbackScan text ws
    else
      match firstIndexOf? text clean with
      | some i => some (i, i + clean.length)
      | none => fallbackScan text ws

/-- Fallback range for the first fragment: scan its words of length `> 2`. -/
def fallbackWordRange (text firstSentence : List Char) : Option (Nat × Nat) :=
  fallbackScan text ((wordsOf firstSentence).filter (fun w => 2 < w.length))

/-- One step of the locating pass of `findRanges`: skip fragments that are
empty after trimming, push the located range otherwise. -/
def locateStep (text : List Char) (acc : List (Nat × Nat))
    (raw : List Char) : List (Nat × Nat) :=
  if trim raw = [] then acc
  else
    match findSentenceRange text (trim raw) with
    | some r => acc ++ [r]
    | none => acc

/-- Locating pass of `findRanges`: collect the ranges of the fragments that
locate (trimmed, empty fragments skipped). -/
def locateAll (text : List Char) (sentences : List (List Char)) :
    List (Nat × Nat) :=
  sentences.foldl (locateStep text) []

/-- Sorting pass of `findRanges`: `ranges.sort((a, b) => a[0] - b[0])`
(stable, by start). -/
def sortRanges (rs : List (Nat × Nat)) : List (Nat × Nat) :=
  rs.mergeSort (fun a b => a.1 ≤ b.1)

/-- Coalescing loop of `findRanges` over the sorted ranges: `cur` is the
open last range, `done` the finished ranges in reverse. -/
def coalesceGo (cur : Nat × Nat) (rest : List (Nat × Nat))
    (done : List (Nat × Nat)) : List (Nat × Nat) :=
  match rest with
  | [] => (cur :: done).reverse
  | (s, e) :: rest' =>
    if s ≤ cur.2 then coalesceGo (cur.1, max cur.2 e) rest' done
    else coalesceGo (s, e) rest' (cur :: done)

/-- Coalesce adjacent or overlapping ranges, as the merge loop of
`findRanges` does. -/
def coalesce : List (Nat × Nat) → List (Nat × Nat)
  | [] => []
  | r :: rest => coalesceGo r rest []

/-- The sort-and-coalesce tail of `findRanges`. -/
def mergeRanges (ranges : List (Nat × Nat)) : List (Nat × Nat) :=
  coalesce (sortRanges ranges)

/-- `findRanges`: locate every fragment, fall back to a single word of the
first fragment when nothing locates, then sort and merge. -/
def findRanges (text : List Char) (sentences : List (List Char)) :
    List (Nat × Nat) :=
  let ranges := locateAll text sentences
  let ranges :=
    if ranges = [] ∧ (trim text).length > 0 ∧ sentences.length > 0 then
      match fallbackWordRange text (trim (sentences.headD [])) with
      | some r => [r]
      | none => []
    else ranges
  mergeRanges ranges

/-- Decoration targets computed by `applyHighlights` (the DOM wrapping
itself is outside the model): the guard clauses, `findRanges`, and the
first-50-characters fallback.  An empty result means no decoration is
applied to the editing surface. -/
def applyHighlightRanges (text : List Char) (sentences : List (List Char)) :
    List (Nat × Nat) :=
  if trim text = [] ∨ sentences = [] then []
  else
    let ranges := findRanges text sentences
    if ranges = [] then
      let len := min 50 (trim text).length
      match (trim text).head? with
      | some c =>
        match firstIndexOf? text [c] with
        | some start => if 0 < len then [(start, start + len)] else []
        | none => []
      | none => []
    else ranges

/-! ### Response parser (`parseThoughtResponse`) -/

/-- Opening brace character (written by code point to keep literals plain). -/
def lbrace : Char := Char.ofNat 123

/-- Closing brace character. -/
def rbrace : Char := Char.ofNat 125

/-- Double-quote character. -/
def dquote : Char := Char.ofNat 34

/-- Backslash character. -/
def bslash : Char := Char.ofNat 92

/-- Backtick character (code fences). -/
def btick : Char := Char.ofNat 96

/-- JSON values as produced by `JSON.parse`.  Number lexemes are kept
verbatim; no claim depends on numeric value. -/
inductive Json where
  | null : Json
  | bool (b : Bool) : Json
  | num (lexeme : List Char) : Json
  | str (s : List Char) : Json
  | arr (items : List Json) : Json
  | obj (fields : List (List Char × Json)) : Json

/-- JSON insignificant whitespace (space, tab, line feed, carriage return). -/
def jsonWs (c : Char) : Bool :=
  c.toNat = 32 || c.toNat = 9 || c.toNat = 10 || c.toNat = 13

/-- Skip JSON whitespace. -/
def skipWs (l : List Char) : List Char := l.dropWhile jsonWs

/-- Hex digit value. -/
def hexVal? (c : Char) : Option Nat :=
  if '0' ≤ c ∧ c ≤ '9' then some (c.toNat - 48)
  else if 'a' ≤ c ∧ c ≤ 'f' then some (c.toNat - 87)
  else if 'A' ≤ c ∧ c ≤ 'F' then some (c.toNat - 55)
  else none

/-- Decimal digit test. -/
def isDigit (c : Char) : Bool := '0' ≤ c && c ≤ '9'

/-- Parse the body of a JSON string after the opening quote; `acc` is the
decoded text in reverse.  Unescaped control characters are rejected, as
`JSON.parse` rejects them. -/
def parseStringBody : List Char → List Char → Option (List Char × List Char)
  | [], _ => none
  | c :: rest, acc =>
    if c = dquote then some (acc.reverse, rest)
    else if c = bslash then
      match rest with
      | [] => none
      | e :: rest' =>
        if e = dquote then parseStringBody rest' (dquote :: acc)
        else if e = bslash then parseStringBody rest' (bslash :: acc)
        else if e = '/' then parseStringBody rest' ('/' :: acc)
        else if e = 'b' then parseStringBody rest' (Char.ofNat 8 :: acc)
        else if e = 'f' then parseStringBody rest' (Char.ofNat 12 :: acc)
        else if e = 'n' then parseStringBody rest' ('\n' :: acc)
        else if e = 'r' then parseStringBody rest' ('\r' :: acc)
        else if e = 't' then parseStringBody rest' ('\t' :: acc)
        else if e = 'u' then
          match rest' with
          | h1 :: h2 :: h3 :: h4 :: rest'' =>
            match hexVal? h1, hexVal? h2, hexVal? h3, hexVal? h4 with
            | some v1, some v2, some v3, some v4 =>
              parseStringBody rest''
                (Char.ofNat (((v1 * 16 + v2) * 16 + v3) * 16 + v4) :: acc)
            | _, _, _, _ => none
          | _ => none
        else none
    else if c.toNat < 32 then none
    else parseStringBody rest (c :: acc)

/-- Parse a JSON number lexeme (strict JSON grammar), returning the lexeme
and the remaining input. -/
def parseNumberLex (l : List Char) : Option (List Char × List Char) :=
  let (neg, l1) :=
    match l with
    | '-' :: t => ([('-' : Char)], t)
    | _ => ([], l)
  match l1 with
  | [] => none
  | c :: _ =>
    if ¬ isDigit c then none
    else
      let intPart := l1.takeWhile isDigit
      let afterInt := l1.dropWhile isDigit
      if 1 < intPart.length ∧ intPart.headD '0' = '0' then none
      else
        let (fracPart, afterFrac) :=
          match afterInt with
          | '.' :: t =>
            if (t.takeWhile isDigit) = [] then ([('.' : Char)], none)
            else (('.' : Char) :: t.takeWhile isDigit, some (t.dropWhile isDigit))
          | _ => ([], some afterInt)
        match afterFrac with
        | none => none
        | some rest2 =>
          match rest2 with
          | c2 :: t2 =>
            if c2 = 'e' ∨ c2 = 'E' then
              let (sgn, t3) :=
                match t2 with
                | '+' :: u => ([('+' : Char)], u)
                | '-' :: u => ([('-' : Char)], u)
                | _ => ([], t2)
              let expD := t3.takeWhile isDigit
              if expD = [] then none
              else some (neg ++ intPart ++ fracPart ++ c2 :: sgn ++ expD,
                t3.dropWhile isDigit)
            else some (neg ++ intPart ++ fracPart, rest2)
          | [] => some (neg ++ intPart ++ fracPart, [])

mutual

/-- Fueled recursive-descent JSON value parser. -/
def parseValue : Nat → List Char → Option (Json × List Char)
  | 0, _ => none
  | fuel + 1, l =>
    match skipWs l with
    | [] => none
    | c :: rest =>
      if c = lbrace then
        match skipWs rest with
        | c2 :: rest2 =>
          if c2 = rbrace then some (.obj [], rest2)
          else parseMembers fuel (skipWs rest) []
        | [] => none
      else if c = '[' then
        match skipWs rest with
        | c2 :: rest2 =>
          if c2 = ']' then some (.arr [], rest2)
          else parseElements fuel (skipWs rest) []
        | [] => none
      else if c = dquote then
        (parseStringBody rest []).map (fun p => (.str p.1, p.2))
      else if c = 't' then
        match rest with
        | 'r' :: 'u' :: 'e' :: rest' => some (.bool true, rest')
        | _ => none
      else if c = 'f' then
        match rest with
        | 'a' :: 'l' :: 's' :: 'e' :: rest' => some (.bool false, rest')
        | _ => none
      else if c = 'n' then
        match rest with
        | 'u' :: 'l' :: 'l' :: rest' => some (.null, rest')
        | _ => none
      else if c = '-' ∨ isDigit c then
        (parseNumberLex (c :: rest)).map (fun p => (.num p.1, p.2))
      else none

/-- Parse the members of a JSON object (after the opening brace, first
member not yet consumed). -/
def parseMembers : Nat → List Char →
    List (List Char × Json) → Option (Json × List Char)
  | 0, _, _ => none
  | fuel + 1, l, acc =>
    match skipWs l with
    | c :: rest =>
      if c = dquote then
        match parseStringBody rest [] with
        | none => none
        | some (key, rest2) =>
          match skipWs rest2 with
          | ':' :: rest3 =>
            match parseValue fuel rest3 with
            | none => none
            | some (v, rest4) =>
              match skipWs rest4 with
              | ',' :: rest5 => parseMembers fuel rest5 ((key, v) :: acc)
              | c5 :: rest5 =>
                if c5 = rbrace then some (.obj ((key, v) :: acc).reverse, rest5)
                else none
              | [] => none
          | _ => none
      else none
    | [] => none

/-- Parse the elements of a JSON array (after the opening bracket, first
element not yet consumed). -/
def parseElements : Nat → List Char → List Json → Option (Json × List Char)
  | 0, _, _ => none
  | fuel + 1, l, acc =>
    match parseValue fuel l with
    | none => none
    | some (v, rest) =>
      match skipWs rest with
      | ',' :: rest2 => parseElements fuel rest2 (v :: acc)
      | ']' :: rest2 => some (.arr (v :: acc).reverse, rest2)
      | _ => none

end

/-- Model of `JSON.parse`: parse one value and require only trailing
whitespace after it. -/
def jsonParse (l : List Char) : Option Json :=
  match parseValue (2 * l.length + 2) l with
  | some (v, rest) => if skipWs rest = [] then some v else none
  | none => none

/-- The literal key `question`. -/
def questionKey : List Char := ['q', 'u', 'e', 's', 't', 'i', 'o', 'n']

/-- The literal key `sentences`. -/
def sentencesKey : List Char := ['s', 'e', 'n', 't', 'e', 'n', 'c', 'e', 's']

/-- Property lookup on a parsed JSON object: with duplicate keys the last
one wins, as in a JavaScript object literal. -/
def getField (fields : List (List Char × Json)) (key : List Char) :
    Option Json :=
  fields.foldl (fun acc f => if f.1 = key then some f.2 else acc) none

/-- The `question` extraction applied to each parsed object: a string field
whose trimmed form is non-empty. -/
def objQuestion (fields : List (List Char × Json)) : Option (List Char) :=
  match getField fields questionKey with
  | some (.str s) => if trim s = [] then none else some (trim s)
  | _ => none

/-- The `sentences` extraction applied to each parsed object: the trimmed
non-empty string elements of an array field, in order. -/
def objSentences (fields : List (List Char × Json)) : List (List Char) :=
  match getField fields sentencesKey with
  | some (.arr items) =>
    items.filterMap (fun j =>
      match j with
      | .str s => if trim s = [] then none else some (trim s)
      | _ => none)
  | _ => []

/-- Accumulator update for one brace-balanced chunk: a chunk that parses to
an object may overwrite the question (when non-empty) and appends its
sentences; anything else is ignored. -/
def chunkUpdate (acc : List Char × List (List Char)) (chunk : List Char) :
    List Char × List (List Char) :=
  match jsonParse chunk with
  | some (.obj fields) =>
    ((objQuestion fields).getD acc.1, acc.2 ++ objSentences fields)
  | _ => acc

/-- The fence literal ```` ```json ````. -/
def fenceJson : List Char := [btick, btick, btick, 'j', 's', 'o', 'n']

/-- The fence literal ```` ``` ````. -/
def fenceTicks : List Char := [btick, btick, btick]

/-- Scanning loop of `raw.replace(/` + "```" + `json\s*|\s*` + "```" +
`/g, "")`: at each position try the first alternative, then the second,
else keep the character. -/
def stripFencesAux : Nat → List Char → List Char
  | 0, s => s
  | fuel + 1, s =>
    match s with
    | [] => []
    | c :: rest =>
      if fenceJson.isPrefixOf s then
        stripFencesAux fuel ((s.drop 7).dropWhile isSpace)
      else if fenceTicks.isPrefixOf (s.dropWhile isSpace) then
        stripFencesAux fuel ((s.dropWhile isSpace).drop 3)
      else c :: stripFencesAux fuel rest

/-- Code-fence removal pass of `parseThoughtResponse`. -/
def stripFences (s : List Char) : List Char := stripFencesAux (s.length + 1) s

/-- The cleaned string `str` of `parseThoughtResponse`. -/
def cleanedStr (raw : List Char) : List Char := trim (stripFences raw)

/-- Brace-depth scan of `parseThoughtResponse`: `depth` is an integer (the
source decrements below zero on unmatched closers), `buf` the current
top-level span in reverse (`none` models `start = -1`), `acc` the finished
spans in reverse. -/
def scanChunksAux : List Char → Int → Option (List Char) →
    List (List Char) → List (List Char)
  | [], _, _, acc => acc.reverse
  | c :: rest, depth, buf, acc =>
    if c = lbrace then
      match buf with
      | some b => scanChunksAux rest (depth + 1) (some (c :: b)) acc
      | none =>
        if depth = 0 then scanChunksAux rest (depth + 1) (some [c]) acc
        else scanChunksAux rest (depth + 1) none acc
    else if c = rbrace then
      match buf with
      | some b =>
        if depth - 1 = 0 then
          scanChunksAux rest (depth - 1) none ((c :: b).reverse :: acc)
        else scanChunksAux rest (depth - 1) (some (c :: b)) acc
      | none => scanChunksAux rest (depth - 1) none acc
    else
      match buf with
      | some b => scanChunksAux rest depth (some (c :: b)) acc
      | none => scanChunksAux rest depth none acc

/-- The brace-balanced `{...}` spans of the cleaned string, in order. -/
def scanChunks (l : List Char) : List (List Char) := scanChunksAux l 0 none []

/-- Field extraction from the whole-string parse result.  `none` models the
`TypeError` thrown by `null.question` (caught by the source); primitives
and arrays yield no fields without throwing. -/
def extractFromJson : Json → Option (List Char × List (List Char))
  | .null => none
  | .obj fields => some ((objQuestion fields).getD [], objSentences fields)
  | _ => some ([], [])

/-- Free-text fallback of `parseThoughtResponse`: use the trimmed string as
the question unless it is empty or starts with an opening brace. -/
def freeTextFallback (str : List Char) : List Char × List (List Char) :=
  let trimmed := trim str
  if trimmed ≠ [] ∧ trimmed.head? ≠ some lbrace then (trimmed, [])
  else ([], [])

/-- `parseThoughtResponse`: strip code fences and trim, fold the extraction
over every brace-balanced span, and when nothing was found fall back to a
whole-string parse and then to free text.  (The source interleaves the
per-span extraction with the scan; scanning the spans first and folding is
the same computation, span by span.) -/
def parseThoughtResponse (raw : List Char) : List Char × List (List Char) :=
  let str := cleanedStr raw
  let acc := (scanChunks str).foldl chunkUpdate ([], [])
  if acc.1 = [] ∧ acc.2 = [] then
    match jsonParse str with
    | some j =>
      match extractFromJson j with
      | some r => r
      | none => freeTextFallback str
    | none => freeTextFallback str
  else acc

/-! ### Generation scheduler (`triggerThought`, `onTextInput`,
`onGenAIClick` and the completion callbacks) -/

/-- The `MIN_TEXT_LENGTH` constant. -/
def MIN_TEXT_LENGTH : Nat := 20

/-- The default question substituted on an empty parse
(`"What stands out to you in what you wrote?"`). -/
def defaultQuestion : List Char :=
  ['W', 'h', 'a', 't', ' ', 's', 't', 'a', 'n', 'd', 's', ' ', 'o', 'u',
   't', ' ', 't', 'o', ' ', 'y', 'o', 'u', ' ', 'i', 'n', ' ', 'w', 'h',
   'a', 't', ' ', 'y', 'o', 'u', ' ', 'w', 'r', 'o', 't', 'e', '?']

/-- Module-level mutable state of the editor: the live text of the editing
surface, the `isGenerating` flag, whether a debounce timer is pending,
whether the engine finished loading, the `applyingHighlights` guard, the
current `Thought`, and the number of outstanding inference requests
(issued but not completed; not a source variable — it counts the pending
`engine.chat.completions.create` promises). -/
structure EditorState where
  editorText : List Char
  isGenerating : Bool
  debounceTimer : Bool
  engineLoaded : Bool
  applyingHighlights : Bool
  thought : Option (List Char × List (List Char))
  outstanding : Nat
deriving Repr, DecidableEq

/-- `getEditorText`: the trimmed text of the editing surface. -/
def getEditorText (s : EditorState) : List Char := trim s.editorText

/-- `triggerThought`: gate on minimum length, then on `isGenerating` and
engine availability; on success cancel the debounce timer, set
`isGenerating` and issue exactly one inference request (the returned
number counts the requests issued by this call). -/
def triggerThought (s : EditorState) : EditorState × Nat :=
  let t := getEditorText s
  if t.length < MIN_TEXT_LENGTH then (s, 0)
  else if s.isGenerating || !s.engineLoaded then (s, 0)
  else
    ({ s with debounceTimer := false, isGenerating := true,
              outstanding := s.outstanding + 1 }, 1)

/-- External events driving the scheduler: a user edit (`input` with the
new surface text), the debounce timer firing, the manual generate button,
engine initialization finishing, a successful completion carrying the raw
model output, a failed completion, and the next animation frame (which
releases the `applyingHighlights` guard). -/
inductive Ev where
  | input (newText : List Char)
  | timerFire
  | click
  | engineLoad
  | completeOk (raw : List Char)
  | completeErr
  | frame

/-- One step of the event loop.  Returns the new state and the number of
inference requests issued during the step.  Completion events are enabled
only while a request is outstanding (`isGenerating`). -/
def schedStep (s : EditorState) (e : Ev) : EditorState × Nat :=
  match e with
  | .input nt =>
    if s.applyingHighlights then (s, 0)
    else ({ s with editorText := nt, thought := none, debounceTimer := true }, 0)
  | .timerFire =>
    if s.debounceTimer then triggerThought { s with debounceTimer := false }
    else (s, 0)
  | .click => triggerThought { s with debounceTimer := false }
  | .engineLoad => ({ s with engineLoaded := true }, 0)
  | .completeOk raw =>
    if s.isGenerating then
      let p := parseThoughtResponse raw
      let th := ((if p.1 = [] then defaultQuestion else p.1), p.2)
      ({ s with thought := some th, isGenerating := false,
                outstanding := s.outstanding - 1,
                applyingHighlights :=
                  (if th.2 ≠ [] ∧ applyHighlightRanges s.editorText th.2 ≠ []
                   then true else s.applyingHighlights) }, 0)
    else (s, 0)
  | .completeErr =>
    if s.isGenerating then
      ({ s with isGenerating := false, outstanding := s.outstanding - 1 }, 0)
    else (s, 0)
  | .frame => ({ s with applyingHighlights := false }, 0)

/-- Initial state: empty editor, nothing pending. -/
def initState : EditorState :=
  ⟨[], false, false, false, false, none, 0⟩

/-- States reachable from the initial state by event steps. -/
inductive Reachable : EditorState → Prop where
  | init : Reachable initState
  | step {s : EditorState} (e : Ev) : Reachable s → Reachable (schedStep s e).1

/-! ### Basic lemmas about trimming -/

theorem dropWhile_head_not {p : Char → Bool} {l t : List Char} {c : Char}
    (h : l.dropWhile p = c :: t) : p c = false := by
  have := List.head?_dropWhile_not p l
  rw [h] at this
  simpa using this

theorem dropWhile_idem {p : Char → Bool} (l : List Char) :
    (l.dropWhile p).dropWhile p = l.dropWhile p := by
  cases h : l.dropWhile p with
  | nil => simp
  | cons c t => rw [List.dropWhile_cons_of_neg]; simp [dropWhile_head_not h]

theorem trimRight_prefixOf (l : List Char) : trimRight l <+: l := by
  have h := List.dropWhile_suffix (l := l.reverse) isSpace
  exact List.reverse_suffix.mp (by simpa [trimRight] using h)

theorem trimLeft_suffix (l : List Char) : trimLeft l <:+ l :=
  List.dropWhile_suffix isSpace

theorem trim_infixOf (l : List Char) : trim l <:+: l :=
  ((trimRight_prefixOf (trimLeft l)).isInfix).trans (trimLeft_suffix l).isInfix

theorem trimRight_idem (l : List Char) : trimRight (trimRight l) = trimRight l := by
  unfold trimRight
  rw [List.reverse_reverse, dropWhile_idem]

theorem trimLeft_head_not {l t : List Char} {c : Char}
    (h : trimLeft l = c :: t) : isSpace c = false :=
  dropWhile_head_not h

theorem trim_head_not {l t : List Char} {c : Char}
    (h : trim l = c :: t) : isSpace c = false := by
  have hp := trimRight_prefixOf (trimLeft l)
  unfold trim at h
  rw [h] at hp
  obtain ⟨r, hr⟩ := hp
  have hr' : trimLeft l = c :: (t ++ r) := by simpa using hr.symm
  exact trimLeft_head_not hr'

theorem trimLeft_of_head_not {c : Char} {t : List Char}
    (hc : isSpace c = false) : trimLeft (c :: t) = c :: t := by
  simp [trimLeft, List.dropWhile_cons_of_neg, hc]

theorem trimLeft_trimRight_trimLeft (l : List Char) :
    trimLeft (trimRight (trimLeft l)) = trimRight (trimLeft l) := by
  cases h : trimRight (trimLeft l) with
  | nil => simp [trimLeft]
  | cons c t =>
    have hp := trimRight_prefixOf (trimLeft l)
    rw [h] at hp
    obtain ⟨r, hr⟩ := hp
    have hr' : trimLeft l = c :: (t ++ r) := by simpa using hr.symm
    have hc : isSpace c = false := trimLeft_head_not hr'
    exact trimLeft_of_head_not hc

theorem trim_trim (l : List Char) : trim (trim l) = trim l := by
  unfold trim
  rw [trimLeft_trimRight_trimLeft, trimRight_idem]

theorem trim_getLast_not {l : List Char} {c : Char}
    (h : (trim l).getLast? = some c) : isSpace c = false := by
  rw [List.getLast?_eq_head?_reverse] at h
  have hrev : (trim l).reverse = (trimLeft l).reverse.dropWhile isSpace := by
    unfold trim trimRight
    rw [List.reverse_reverse]
  rw [hrev] at h
  cases heq : (trimLeft l).reverse.dropWhile isSpace with
  | nil => rw [heq] at h; simp at h
  | cons d t =>
    rw [heq] at h
    simp only [List.head?_cons, Option.some.injEq] at h
    subst h
    exact dropWhile_head_not heq

/-! ### Range merger lemmas (claim C2) -/

/-- Output ranges strictly precede each other: sorted by start and gap
between end and next start. -/
def RangeOrd (a b : Nat × Nat) : Prop := a.1 ≤ b.1 ∧ a.2 < b.1

theorem RangeOrd.trans' {a b c : Nat × Nat} (h1 : RangeOrd a b)
    (h2 : RangeOrd b c) : RangeOrd a c :=
  ⟨h1.1.trans h2.1, h1.2.trans_le h2.1⟩

instance : IsTrans (Nat × Nat) RangeOrd :=
  ⟨fun _ _ _ => RangeOrd.trans'⟩

theorem coalesceGo_acc (rest : List (Nat × Nat)) :
    ∀ (cur : Nat × Nat) (done : List (Nat × Nat)),
      coalesceGo cur rest done = done.reverse ++ coalesceGo cur rest [] := by
  induction rest with
  | nil => intro cur done; simp [coalesceGo]
  | cons r rest' ih =>
    intro cur done
    obtain ⟨s, e⟩ := r
    by_cases h : s ≤ cur.2
    · simp only [coalesceGo, h, if_pos]
      exact ih _ done
    · simp only [coalesceGo, h, if_neg, not_false_iff]
      rw [ih (s, e) (cur :: done), ih (s, e) [cur]]
      simp

theorem coalesceGo_sorted (rest : List (Nat × Nat)) :
    ∀ (cur : Nat × Nat),
      (∀ r ∈ rest, cur.1 ≤ r.1) →
      rest.Pairwise (fun a b => a.1 ≤ b.1) →
      ∃ e' out', cur.2 ≤ e' ∧
        coalesceGo cur rest [] = (cur.1, e') :: out' ∧
        List.Chain' RangeOrd ((cur.1, e') :: out') := by
  induction rest with
  | nil =>
    intro cur _ _
    exact ⟨cur.2, [], le_refl _, by simp [coalesceGo], by simp⟩
  | cons r rest' ih =>
    intro cur hstart hpw
    obtain ⟨s, e⟩ := r
    by_cases h : s ≤ cur.2
    · simp only [coalesceGo, h, if_pos]
      obtain ⟨e', out', he', heq, hch⟩ := ih (cur.1, max cur.2 e)
        (fun r hr => hstart r (List.mem_cons_of_mem _ hr))
        (List.Pairwise.of_cons hpw)
      exact ⟨e', out', le_trans (le_max_left _ _) he', heq, hch⟩
    · simp only [coalesceGo, h, if_neg, not_false_iff]
      obtain ⟨e₂, out₂, he₂, heq₂, hch₂⟩ := ih (s, e)
        (fun r hr => (List.rel_of_pairwise_cons hpw hr))
        (List.Pairwise.of_cons hpw)
      refine ⟨cur.2, (s, e₂) :: out₂, le_refl _, ?_, ?_⟩
      · rw [coalesceGo_acc rest' (s, e) [cur], heq₂]; simp
      · refine List.Chain'.cons ?_ hch₂
        exact ⟨hstart (s, e) (List.mem_cons_self _ _), Nat.lt_of_not_le h⟩

theorem coalesce_sorted (l : List (Nat × Nat))
    (h : l.Pairwise (fun a b => a.1 ≤ b.1)) :
    (coalesce l).Pairwise RangeOrd := by
  cases l with
  | nil => simp [coalesce]
  | cons cur rest =>
    obtain ⟨e', out', _, heq, hch⟩ := coalesceGo_sorted rest cur
      (fun r hr => List.rel_of_pairwise_cons h hr)
      (List.Pairwise.of_cons h)
    show (coalesceGo cur rest []).Pairwise RangeOrd
    rw [heq]
    exact List.chain'_iff_pairwise.mp hch

theorem coalesceGo_of_chain (rest : List (Nat × Nat)) :
    ∀ (cur : Nat × Nat), List.Chain' RangeOrd (cur :: rest) →
      coalesceGo cur rest [] = cur :: rest := by
  induction rest with
  | nil => intro cur _; simp [coalesceGo]
  | cons r rest' ih =>
    intro cur hch
    obtain ⟨s, e⟩ := r
    have hgap : RangeOrd cur (s, e) := List.chain'_cons.mp hch |>.1
    have h : ¬ s ≤ cur.2 := Nat.not_le_of_lt hgap.2
    simp only [coalesceGo, h, if_neg, not_false_iff]
    rw [coalesceGo_acc rest' (s, e) [cur], ih (s, e) (List.chain'_cons.mp hch).2]
    simp

theorem sortRanges_pairwise (R : List (Nat × Nat)) :
    (sortRanges R).Pairwise (fun a b => a.1 ≤ b.1) := by
  have h := @List.sorted_mergeSort (Nat × Nat)
    (fun a b : Nat × Nat => decide (a.1 ≤ b.1))
    (fun a b c hab hbc => by
      simp only [decide_eq_true_eq] at *; exact le_trans hab hbc)
    (fun a b => by
      simp only [Bool.or_eq_true, decide_eq_true_eq]; exact Nat.le_total a.1 b.1)
    R
  unfold sortRanges
  refine h.imp ?_
  intro a b hab
  simpa using hab

theorem mergeRanges_pairwise (R : List (Nat × Nat)) :
    (mergeRanges R).Pairwise RangeOrd :=
  coalesce_sorted _ (sortRanges_pairwise R)

theorem mergeRanges_chain (R : List (Nat × Nat)) :
    List.Chain' RangeOrd (mergeRanges R) := by
  unfold mergeRanges
  cases hs : sortRanges R with
  | nil => simp [coalesce]
  | cons cur rest =>
    have h := sortRanges_pairwise R
    rw [hs] at h
    obtain ⟨e', out', _, heq, hch⟩ := coalesceGo_sorted rest cur
      (fun r hr => List.rel_of_pairwise_cons h hr)
      (List.Pairwise.of_cons h)
    show List.Chain' RangeOrd (coalesceGo cur rest [])
    rw [heq]; exact hch

theorem mergeRanges_idem (R : List (Nat × Nat)) :
    mergeRanges (mergeRanges R) = mergeRanges R := by
  have hch := mergeRanges_chain R
  have hpw := mergeRanges_pairwise R
  have hsorted : sortRanges (mergeRanges R) = mergeRanges R := by
    apply List.mergeSort_of_sorted
    refine hpw.imp ?_
    intro a b hab
    simpa using hab.1
  show coalesce (sortRanges (mergeRanges R)) = mergeRanges R
  rw [hsorted]
  cases hm : mergeRanges R with
  | nil => simp [coalesce]
  | cons cur rest =>
    rw [hm] at hch
    exact coalesceGo_of_chain rest cur hch

theorem sortRanges_nil : sortRanges [] = [] := by
  unfold sortRanges; rw [List.mergeSort_nil]

theorem sortRanges_single (r : Nat × Nat) : sortRanges [r] = [r] := by
  unfold sortRanges; rw [List.mergeSort_singleton]

theorem mergeRanges_nil : mergeRanges [] = [] := by
  unfold mergeRanges; rw [sortRanges_nil]; rfl

theorem mergeRanges_single (r : Nat × Nat) : mergeRanges [r] = [r] := by
  unfold mergeRanges; rw [sortRanges_single]; rfl

theorem sortRanges_of_sorted {l : List (Nat × Nat)}
    (h : l.Pairwise (fun a b => decide (a.1 ≤ b.1) = true)) :
    sortRanges l = l := by
  unfold sortRanges; exact List.mergeSort_of_sorted h

/-- C2: the range-merging step (sort-and-coalesce tail of `findRanges`) is
idempotent; for every input its output is sorted ascending by start and
pairwise non-overlapping; a pair with `next.start ≤ current.end` is
coalesced into one range whose end is the maximum of the two ends; and the
ranges `[5,10)` and `[8,15)` merge to `[5,15)`. -/
theorem C2_merge_sort_coalesce :
    (∀ R : List (Nat × Nat), mergeRanges (mergeRanges R) = mergeRanges R) ∧
    (∀ R : List (Nat × Nat),
      (mergeRanges R).Pairwise (fun a b => a.1 ≤ b.1 ∧ a.2 < b.1)) ∧
    (∀ (cur : Nat × Nat) (s e : Nat) (rest done : List (Nat × Nat)),
      s ≤ cur.2 →
      coalesceGo cur ((s, e) :: rest) done =
        coalesceGo (cur.1, max cur.2 e) rest done) ∧
    mergeRanges [(5, 10), (8, 15)] = [(5, 15)] := by
  refine ⟨mergeRanges_idem, fun R => (mergeRanges_pairwise R).imp ?_, ?_, ?_⟩
  · intro a b hab; exact hab
  · intro cur s e rest done h
    simp [coalesceGo, h]
  · show coalesce (sortRanges [(5, 10), (8, 15)]) = [(5, 15)]
    rw [sortRanges_of_sorted (by decide)]
    decide

/-- Witness for C2 at concrete inputs. -/
theorem C2_merge_sort_coalesce_witness :
    coalesceGo (5, 10) [(8, 15)] [] = coalesceGo (5, max 10 15) [] [] ∧
    mergeRanges (mergeRanges [(5, 10), (8, 15)]) =
      mergeRanges [(5, 10), (8, 15)] :=
  ⟨C2_merge_sort_coalesce.2.2.1 (5, 10) 8 15 [] [] (by decide),
   C2_merge_sort_coalesce.1 [(5, 10), (8, 15)]⟩

/-! ### Normalized map lemmas (claims C8 and C1) -/

theorem bnmAux_snd_bound (l : List Char) :
    ∀ (i : Nat) (b : Bool) (p : Char × Nat), p ∈ bnmAux l i b →
      i ≤ p.2 ∧ p.2 < i + l.length := by
  induction l with
  | nil => intro i b p hp; simp [bnmAux] at hp
  | cons c t ih =>
    intro i b p hp
    simp only [bnmAux] at hp
    by_cases hc : isSpace c
    · rw [if_pos hc] at hp
      by_cases hb : b
      · rw [if_pos hb] at hp
        have := ih (i + 1) true p hp
        simp only [List.length_cons]
        omega
      · rw [if_neg hb] at hp
        rcases List.mem_cons.mp hp with h | h
        · subst h; simp only [List.length_cons]; omega
        · have := ih (i + 1) true p h
          simp only [List.length_cons]
          omega
    · rw [if_neg hc] at hp
      rcases List.mem_cons.mp hp with h | h
      · subst h; simp only [List.length_cons]; omega
      · have := ih (i + 1) false p h
        simp only [List.length_cons]
        omega

theorem bnmAux_snd_lt (l : List Char) :
    ∀ (i : Nat) (b : Bool),
      ((bnmAux l i b).map Prod.snd).Pairwise (· < ·) := by
  induction l with
  | nil => intro i b; simp [bnmAux]
  | cons c t ih =>
    intro i b
    have step : ∀ (c' : Char),
        (((c', i) :: bnmAux t (i + 1) (isSpace c)).map Prod.snd).Pairwise
          (· < ·) := by
      intro c'
      simp only [List.map_cons]
      refine List.Pairwise.cons ?_ (ih (i + 1) (isSpace c))
      intro x hx
      obtain ⟨p, hp, hpx⟩ := List.mem_map.mp hx
      have := bnmAux_snd_bound t (i + 1) (isSpace c) p hp
      omega
    simp only [bnmAux]
    by_cases hc : isSpace c
    · rw [if_pos hc]
      by_cases hb : b
      · rw [if_pos hb]; exact ih (i + 1) true
      · rw [if_neg hb]
        have := step ' '
        rw [hc] at this
        exact this
    · rw [if_neg hc]
      have := step c
      simp only [hc] at this
      exact this

theorem bnmAux_char (l : List Char) :
    ∀ (i : Nat) (b : Bool) (p : Char × Nat), p ∈ bnmAux l i b →
      (p.1 = ' ' →
        isSpace (l.getD (p.2 - i) ' ') = true ∧
        (p.2 = i → b = false) ∧
        (i < p.2 → isSpace (l.getD (p.2 - i - 1) ' ') = false)) ∧
      (p.1 ≠ ' ' → l.getD (p.2 - i) ' ' = p.1 ∧ isSpace p.1 = false) := by
  induction l with
  | nil => intro i b p hp; simp [bnmAux] at hp
  | cons c t ih =>
    intro i b p hp
    simp only [bnmAux] at hp
    by_cases hc : isSpace c
    · rw [if_pos hc] at hp
      have fromTail : p ∈ bnmAux t (i + 1) true →
          (p.1 = ' ' →
            isSpace ((c :: t).getD (p.2 - i) ' ') = true ∧
            (p.2 = i → b = false) ∧
            (i < p.2 →
              isSpace ((c :: t).getD (p.2 - i - 1) ' ') = false)) ∧
          (p.1 ≠ ' ' →
            (c :: t).getD (p.2 - i) ' ' = p.1 ∧ isSpace p.1 = false) := by
        intro h
        have hb2 := bnmAux_snd_bound t (i + 1) true p h
        have ihp := ih (i + 1) true p h
        have hshift : (c :: t).getD (p.2 - i) ' ' = t.getD (p.2 - i - 1) ' ' := by
          have : p.2 - i = (p.2 - i - 1) + 1 := by omega
          rw [this]; rfl
        have hshift2 : p.2 - i - 1 = p.2 - (i + 1) := by omega
        constructor
        · intro hsp
          obtain ⟨h1, h2, h3⟩ := ihp.1 hsp
          refine ⟨?_, ?_, ?_⟩
          · rw [hshift, hshift2]; exact h1
          · intro hpi; omega
          · intro hlt
            by_cases heq : p.2 = i + 1
            · exact absurd (h2 heq) (by simp)
            · have hlt2 : i + 1 < p.2 := by omega
              have h4 := h3 hlt2
              have : (c :: t).getD (p.2 - i - 1) ' ' =
                  t.getD (p.2 - i - 2) ' ' := by
                have : p.2 - i - 1 = (p.2 - i - 2) + 1 := by omega
                rw [this]; rfl
              rw [this]
              have : p.2 - i - 2 = p.2 - (i + 1) - 1 := by omega
              rw [this]; exact h4
        · intro hnsp
          obtain ⟨h1, h2⟩ := ihp.2 hnsp
          exact ⟨by rw [hshift, hshift2]; exact h1, h2⟩
      by_cases hb : b
      · rw [if_pos hb] at hp
        exact fromTail hp
      · rw [if_neg hb] at hp
        rcases List.mem_cons.mp hp with h | h
        · subst h
          constructor
          · intro _
            refine ⟨by simpa using hc, fun _ => by simpa using hb,
              fun hlt => by omega⟩
          · intro hne; exact absurd rfl hne
        · exact fromTail h
    · rw [if_neg hc] at hp
      rcases List.mem_cons.mp hp with h | h
      · subst h
        constructor
        · intro hsp
          have hcc : c = ' ' := hsp
          rw [hcc] at hc
          exact absurd (by decide : isSpace ' ' = true) hc
        · intro _
          exact ⟨by simp, by simpa using hc⟩
      · have hb2 := bnmAux_snd_bound t (i + 1) false p h
        have ihp := ih (i + 1) false p h
        have hshift : (c :: t).getD (p.2 - i) ' ' = t.getD (p.2 - i - 1) ' ' := by
          have : p.2 - i = (p.2 - i - 1) + 1 := by omega
          rw [this]; rfl
        have hshift2 : p.2 - i - 1 = p.2 - (i + 1) := by omega
        constructor
        · intro hsp
          obtain ⟨h1, _, h3⟩ := ihp.1 hsp
          refine ⟨by rw [hshift, hshift2]; exact h1, fun hpi => by omega, ?_⟩
          intro hlt
          by_cases heq : p.2 = i + 1
          · have : (c :: t).getD (p.2 - i - 1) ' ' = c := by
              rw [heq]; simp
            rw [this]; simpa using hc
          · have hlt2 : i + 1 < p.2 := by omega
            have h4 := h3 hlt2
            have : (c :: t).getD (p.2 - i - 1) ' ' =
                t.getD (p.2 - i - 2) ' ' := by
              have : p.2 - i - 1 = (p.2 - i - 2) + 1 := by omega
              rw [this]; rfl
            rw [this]
            have : p.2 - i - 2 = p.2 - (i + 1) - 1 := by omega
            rw [this]; exact h4
        · intro hnsp
          obtain ⟨h1, h2⟩ := ihp.2 hnsp
          exact ⟨by rw [hshift, hshift2]; exact h1, h2⟩

theorem getD_map_fst (l : List (Char × Nat)) (i : Nat) (h : i < l.length)
    (d : Char) : (l.map Prod.fst).getD i d = (l.get ⟨i, h⟩).1 := by
  simp [List.getD_eq_getElem?_getD, List.getElem?_eq_getElem, h]

theorem getD_map_snd (l : List (Char × Nat)) (i : Nat) (h : i < l.length)
    (d : Nat) : (l.map Prod.snd).getD i d = (l.get ⟨i, h⟩).2 := by
  simp [List.getD_eq_getElem?_getD, List.getElem?_eq_getElem, h]

/-- C8: `buildNormalizedMap` returns an `origStart` array of the same
length as the normalized string; `origStart` is non-decreasing; and each
kept character — including the single space representing a collapsed
whitespace run — is mapped to the original index of the first character of
its run (a whitespace original either at index 0 or preceded by
non-whitespace for the space representative, the character itself
otherwise). -/
theorem C8_buildNormalizedMap_spec (text : List Char) :
    (buildNormalizedMap text).2.length = (buildNormalizedMap text).1.length ∧
    (buildNormalizedMap text).2.Pairwise (· ≤ ·) ∧
    (∀ i, i < (buildNormalizedMap text).1.length →
      (buildNormalizedMap text).2.getD i 0 < text.length ∧
      ((buildNormalizedMap text).1.getD i ' ' = ' ' →
        isSpace (text.getD ((buildNormalizedMap text).2.getD i 0) ' ') = true ∧
        ((buildNormalizedMap text).2.getD i 0 = 0 ∨
          isSpace
            (text.getD ((buildNormalizedMap text).2.getD i 0 - 1) ' ') =
              false)) ∧
      ((buildNormalizedMap text).1.getD i ' ' ≠ ' ' →
        text.getD ((buildNormalizedMap text).2.getD i 0) ' ' =
          (buildNormalizedMap text).1.getD i ' ')) := by
  refine ⟨by simp [buildNormalizedMap], ?_, ?_⟩
  · exact (bnmAux_snd_lt text 0 false).imp (fun h => Nat.le_of_lt h)
  · intro i hi
    have hi' : i < (bnmAux text 0 false).length := by
      simpa [buildNormalizedMap] using hi
    have hfst : (buildNormalizedMap text).1.getD i ' ' =
        ((bnmAux text 0 false).get ⟨i, hi'⟩).1 :=
      getD_map_fst _ i hi' ' '
    have hsnd : (buildNormalizedMap text).2.getD i 0 =
        ((bnmAux text 0 false).get ⟨i, hi'⟩).2 :=
      getD_map_snd _ i hi' 0
    have hmem := List.get_mem (bnmAux text 0 false) i hi'
    have hbound := bnmAux_snd_bound text 0 false _ hmem
    have hchar := bnmAux_char text 0 false _ hmem
    rw [hfst, hsnd]
    set p := (bnmAux text 0 false).get ⟨i, hi'⟩ with hp
    refine ⟨by omega, ?_, ?_⟩
    · intro hsp
      obtain ⟨h1, _, h3⟩ := hchar.1 hsp
      refine ⟨by simpa using h1, ?_⟩
      by_cases h0 : p.2 = 0
      · exact Or.inl h0
      · exact Or.inr (by simpa using h3 (by omega))
    · intro hnsp
      have := (hchar.2 hnsp).1
      simpa using this

/-- Witness for C8 at a concrete text. -/
theorem C8_buildNormalizedMap_spec_witness :
    (buildNormalizedMap [' ', 'a', ' ', ' ', 'b']).2.getD 2 0 <
        ([' ', 'a', ' ', ' ', 'b'] : List Char).length ∧
    (buildNormalizedMap [' ', 'a', ' ', ' ', 'b']).2.Pairwise (· ≤ ·) := by
  have h := C8_buildNormalizedMap_spec [' ', 'a', ' ', ' ', 'b']
  exact ⟨(h.2.2 2 (by decide)).1, h.2.1⟩

theorem bnmAux_map_fst (l : List Char) :
    ∀ (i : Nat) (b : Bool), (bnmAux l i b).map Prod.fst = collapseAux l b := by
  induction l with
  | nil => intro i b; simp [bnmAux, collapseAux]
  | cons c t ih =>
    intro i b
    simp only [bnmAux, collapseAux]
    by_cases hc : isSpace c
    · rw [if_pos hc, if_pos hc]
      by_cases hb : b
      · rw [if_pos hb, if_pos hb]; exact ih (i + 1) true
      · rw [if_neg hb, if_neg hb]; simp [ih (i + 1) true]
    · rw [if_neg hc, if_neg hc]; simp [ih (i + 1) false]

theorem collapseAux_nonspace {c : Char} (hc : isSpace c = false)
    (X : List Char) (b : Bool) :
    collapseAux (c :: X) b = c :: collapseAux X false := by
  simp [collapseAux, hc]

theorem collapseAux_cons_ws_true {c : Char} (hc : isSpace c = true)
    (X : List Char) : collapseAux (c :: X) true = collapseAux X true := by
  simp [collapseAux, hc]

theorem collapseAux_cons_ws_false {c : Char} (hc : isSpace c = true)
    (X : List Char) :
    collapseAux (c :: X) false = ' ' :: collapseAux X true := by
  simp [collapseAux, hc]

theorem collapseAux_ws_true (w : List Char)
    (hw : ∀ c ∈ w, isSpace c = true) :
    ∀ X : List Char, collapseAux (w ++ X) true = collapseAux X true := by
  induction w with
  | nil => intro X; rfl
  | cons c w' ih =>
    intro X
    rw [List.cons_append,
      collapseAux_cons_ws_true (hw c (List.mem_cons_self _ _))]
    exact ih (fun d hd => hw d (List.mem_cons_of_mem _ hd)) X

theorem collapseAux_ws_false (w : List Char) (hne : w ≠ [])
    (hw : ∀ c ∈ w, isSpace c = true) (X : List Char) :
    collapseAux (w ++ X) false = ' ' :: collapseAux X true := by
  cases w with
  | nil => exact absurd rfl hne
  | cons c w' =>
    rw [List.cons_append,
      collapseAux_cons_ws_false (hw c (List.mem_cons_self _ _))]
    rw [collapseAux_ws_true w' (fun d hd => hw d (List.mem_cons_of_mem _ hd)) X]

theorem collapseAux_normalizeNewlines :
    ∀ (n : Nat) (l : List Char), l.length ≤ n → ∀ b : Bool,
      collapseAux (normalizeNewlines l) b = collapseAux l b := by
  intro n
  induction n with
  | zero =>
    intro l hl b
    have : l = [] := List.eq_nil_of_length_eq_zero (Nat.le_zero.mp hl)
    subst this; rfl
  | succ n ih =>
    intro l hl b
    cases l with
    | nil => rfl
    | cons c rest =>
      cases rest with
      | nil =>
        show collapseAux (if c = '\r' then ['\n'] else [c]) b =
          collapseAux [c] b
        by_cases hc : c = '\r'
        · rw [if_pos hc]; subst hc
          cases b <;> decide
        · rw [if_neg hc]
      | cons c2 rest2 =>
        show collapseAux
          (if c = '\r' then
            if c2 = '\n' then '\n' :: normalizeNewlines rest2
            else '\n' :: normalizeNewlines (c2 :: rest2)
          else c :: normalizeNewlines (c2 :: rest2)) b =
          collapseAux (c :: c2 :: rest2) b
        by_cases hc : c = '\r'
        · rw [if_pos hc]; subst hc
          by_cases hc2 : c2 = '\n'
          · rw [if_pos hc2]; subst hc2
            have hrec := ih rest2 (by simp at hl; omega)
            cases b
            · rw [collapseAux_cons_ws_false (by decide),
                collapseAux_cons_ws_false (by decide),
                collapseAux_cons_ws_true (by decide), hrec]
            · rw [collapseAux_cons_ws_true (by decide),
                collapseAux_cons_ws_true (by decide),
                collapseAux_cons_ws_true (by decide), hrec]
          · rw [if_neg hc2]
            have hrec := ih (c2 :: rest2) (by
              simp only [List.length_cons] at hl ⊢
              omega)
            cases b
            · rw [collapseAux_cons_ws_false (by decide),
                collapseAux_cons_ws_false (by decide), hrec]
            · rw [collapseAux_cons_ws_true (by decide),
                collapseAux_cons_ws_true (by decide), hrec]
        · rw [if_neg hc]
          have hrec := ih (c2 :: rest2) (by
            simp only [List.length_cons] at hl ⊢
            omega)
          by_cases hcs : isSpace c
          · cases b
            · rw [collapseAux_cons_ws_false hcs,
                collapseAux_cons_ws_false hcs, hrec]
            · rw [collapseAux_cons_ws_true hcs,
                collapseAux_cons_ws_true hcs, hrec]
          · have hcs' : isSpace c = false := by simpa using hcs
            rw [collapseAux_nonspace hcs', collapseAux_nonspace hcs', hrec]

theorem collapseWS_normalizeNewlines (l : List Char) :
    collapseWS (normalizeNewlines l) = collapseWS l :=
  collapseAux_normalizeNewlines l.length l (le_refl _) false

theorem firstIndexOf?_pos {hay needle : List Char}
    (hp : needle.isPrefixOf hay = true) :
    firstIndexOf? hay needle = some 0 := by
  cases hay with
  | nil =>
    show (if needle.isPrefixOf ([] : List Char) then some 0 else none) = some 0
    rw [if_pos hp]
  | cons c t =>
    show (if needle.isPrefixOf (c :: t) then some 0
      else (firstIndexOf? t needle).map Nat.succ) = some 0
    rw [if_pos hp]

theorem firstIndexOf?_neg_nil {needle : List Char}
    (hp : ¬ needle.isPrefixOf ([] : List Char) = true) :
    firstIndexOf? [] needle = none := by
  show (if needle.isPrefixOf ([] : List Char) then some 0 else none) = none
  rw [if_neg hp]

theorem firstIndexOf?_neg_cons {needle : List Char} {c : Char} {t : List Char}
    (hp : ¬ needle.isPrefixOf (c :: t) = true) :
    firstIndexOf? (c :: t) needle = (firstIndexOf? t needle).map Nat.succ := by
  show (if needle.isPrefixOf (c :: t) then some 0
    else (firstIndexOf? t needle).map Nat.succ) =
    (firstIndexOf? t needle).map Nat.succ
  rw [if_neg hp]

theorem firstIndexOf?_sound (needle : List Char) :
    ∀ (hay : List Char) (i : Nat), firstIndexOf? hay needle = some i →
      needle.isPrefixOf (hay.drop i) = true ∧ i + needle.length ≤ hay.length := by
  intro hay
  induction hay with
  | nil =>
    intro i h
    by_cases hp : needle.isPrefixOf ([] : List Char)
    · rw [firstIndexOf?_pos hp] at h
      obtain rfl : (0 : Nat) = i := by simpa using h
      have hlen := (List.isPrefixOf_iff_prefix.mp hp).length_le
      exact ⟨by simpa using hp, by simpa using hlen⟩
    · rw [firstIndexOf?_neg_nil hp] at h
      simp at h
  | cons c t ih =>
    intro i h
    by_cases hp : needle.isPrefixOf (c :: t)
    · rw [firstIndexOf?_pos hp] at h
      obtain rfl : (0 : Nat) = i := by simpa using h
      refine ⟨by simpa using hp, ?_⟩
      have := (List.isPrefixOf_iff_prefix.mp hp).length_le
      simpa using this
    · rw [firstIndexOf?_neg_cons hp] at h
      cases hft : firstIndexOf? t needle with
      | none => rw [hft] at h; simp at h
      | some j =>
        rw [hft] at h
        obtain rfl : j + 1 = i := by simpa using h
        obtain ⟨h1, h2⟩ := ih j hft
        refine ⟨by simpa using h1, ?_⟩
        simp only [List.length_cons]
        omega

theorem firstIndexOf?_complete (needle : List Char) :
    ∀ (hay : List Char), needle <:+: hay →
      ∃ i, firstIndexOf? hay needle = some i := by
  intro hay
  induction hay with
  | nil =>
    intro h
    have : needle = [] := List.sublist_nil.mp h.sublist
    subst this
    exact ⟨0, firstIndexOf?_pos (by simp [List.isPrefixOf])⟩
  | cons c t ih =>
    intro h
    by_cases hp : needle.isPrefixOf (c :: t)
    · exact ⟨0, firstIndexOf?_pos hp⟩
    · have : needle <:+: t := by
        rcases List.infix_cons_iff.mp h with h1 | h1
        · exact absurd (List.isPrefixOf_iff_prefix.mpr h1) hp
        · exact h1
      obtain ⟨j, hj⟩ := ih this
      exact ⟨j + 1, by rw [firstIndexOf?_neg_cons hp, hj]; rfl⟩

theorem bnmAux_cons_ws_true' {c : Char} (hc : isSpace c = true)
    (t : List Char) (i : Nat) :
    bnmAux (c :: t) i true = bnmAux t (i + 1) true := by
  simp [bnmAux, hc]

theorem bnmAux_cons_ws_false' {c : Char} (hc : isSpace c = true)
    (t : List Char) (i : Nat) :
    bnmAux (c :: t) i false = (' ', i) :: bnmAux t (i + 1) true := by
  simp [bnmAux, hc]

theorem bnmAux_cons_nonspace {c : Char} (hc : isSpace c = false)
    (t : List Char) (i : Nat) (b : Bool) :
    bnmAux (c :: t) i b = (c, i) :: bnmAux t (i + 1) false := by
  simp [bnmAux, hc]

theorem bnmAux_head_shape {l : List Char} {j j2 : Nat} {c2 : Char}
    {R : List (Char × Nat)} (h : bnmAux l j false = (c2, j2) :: R) :
    j2 = j ∧ ∃ y ys, l = y :: ys ∧
      ((isSpace y = true ∧ c2 = ' ' ∧ R = bnmAux ys (j + 1) true) ∨
       (isSpace y = false ∧ c2 = y ∧ R = bnmAux ys (j + 1) false)) := by
  cases l with
  | nil => simp [bnmAux] at h
  | cons y ys =>
    by_cases hy : isSpace y
    · rw [bnmAux_cons_ws_false' hy] at h
      injection h with h1 h2
      obtain ⟨hc, hj⟩ : ' ' = c2 ∧ j = j2 :=
        ⟨congrArg Prod.fst h1, congrArg Prod.snd h1⟩
      exact ⟨hj.symm, y, ys, rfl, Or.inl ⟨hy, hc.symm, h2.symm⟩⟩
    · have hy' : isSpace y = false := by simpa using hy
      rw [bnmAux_cons_nonspace hy'] at h
      injection h with h1 h2
      obtain ⟨hc, hj⟩ : y = c2 ∧ j = j2 :=
        ⟨congrArg Prod.fst h1, congrArg Prod.snd h1⟩
      exact ⟨hj.symm, y, ys, rfl, Or.inr ⟨hy', hc.symm, h2.symm⟩⟩

theorem bnmAux_tail (l : List Char) :
    ∀ (i : Nat) (b : Bool) (c : Char) (j : Nat) (R : List (Char × Nat)),
      bnmAux l i b = (c, j) :: R →
      i ≤ j ∧ bnmAux (l.drop (j - i)) j false = (c, j) :: R ∧
      (∀ d ∈ l.take (j - i), isSpace d = true) ∧
      (b = true → isSpace c = false) := by
  induction l with
  | nil => intro i b c j R h; simp [bnmAux] at h
  | cons x t ih =>
    intro i b c j R h
    by_cases hx : isSpace x
    · cases b with
      | true =>
        rw [bnmAux_cons_ws_true' hx] at h
        obtain ⟨h1, h2, h3, h4⟩ := ih (i + 1) true c j R h
        have hji : j - i = (j - (i + 1)) + 1 := by omega
        refine ⟨by omega, ?_, ?_, fun _ => h4 rfl⟩
        · rw [hji]
          show bnmAux (t.drop (j - (i + 1))) j false = (c, j) :: R
          exact h2
        · intro d hd
          rw [hji] at hd
          rcases List.mem_cons.mp hd with h | h
          · subst h; exact hx
          · exact h3 d h
      | false =>
        rw [bnmAux_cons_ws_false' hx] at h
        injection h with h1 h2
        have hcj : ' ' = c := congrArg Prod.fst h1
        have hij : i = j := congrArg Prod.snd h1
        subst hij
        refine ⟨le_refl i, ?_, by simp, by simp⟩
        have : i - i = 0 := by omega
        rw [this]
        show bnmAux (x :: t) i false = (c, i) :: R
        rw [bnmAux_cons_ws_false' hx, ← hcj, h2]
    · have hx' : isSpace x = false := by simpa using hx
      rw [bnmAux_cons_nonspace hx'] at h
      injection h with h1 h2
      have hcx : x = c := congrArg Prod.fst h1
      have hij : i = j := congrArg Prod.snd h1
      subst hij
      refine ⟨le_refl i, ?_, by simp, fun _ => hcx ▸ hx'⟩
      have : i - i = 0 := by omega
      rw [this]
      show bnmAux (x :: t) i false = (c, i) :: R
      rw [bnmAux_cons_nonspace hx', hcx, h2]

theorem bnmAux_peel (l : List Char) :
    ∀ (i : Nat) (b : Bool) (P R : List (Char × Nat)),
      bnmAux l i b = P ++ R →
      ∃ m b₂, m ≤ l.length ∧ R = bnmAux (l.drop m) (i + m) b₂ := by
  induction l with
  | nil =>
    intro i b P R h
    simp [bnmAux] at h
    refine ⟨0, b, by simp, ?_⟩
    rw [h.2]
    rfl
  | cons x t ih =>
    intro i b P R h
    cases P with
    | nil =>
      refine ⟨0, b, by simp, ?_⟩
      simpa using h.symm
    | cons p P' =>
      by_cases hx : isSpace x
      · cases b with
        | true =>
          rw [bnmAux_cons_ws_true' hx] at h
          obtain ⟨m, b₂, hm, hR⟩ := ih (i + 1) true (p :: P') R h
          refine ⟨m + 1, b₂, by simp; omega, ?_⟩
          have harith : i + (m + 1) = i + 1 + m := by omega
          rw [harith]
          exact hR
        | false =>
          rw [bnmAux_cons_ws_false' hx] at h
          injection h with h1 h2
          obtain ⟨m, b₂, hm, hR⟩ := ih (i + 1) true P' R h2
          refine ⟨m + 1, b₂, by simp; omega, ?_⟩
          have harith : i + (m + 1) = i + 1 + m := by omega
          rw [harith]
          exact hR
      · have hx' : isSpace x = false := by simpa using hx
        rw [bnmAux_cons_nonspace hx'] at h
        injection h with h1 h2
        obtain ⟨m, b₂, hm, hR⟩ := ih (i + 1) false P' R h2
        refine ⟨m + 1, b₂, by simp; omega, ?_⟩
        have harith : i + (m + 1) = i + 1 + m := by omega
        rw [harith]
        exact hR

theorem take_split (l : List Char) (m k : Nat) :
    l.take (m + k) = l.take m ++ (l.drop m).take k := by
  induction m generalizing l with
  | zero => simp
  | succ m ih =>
    cases l with
    | nil => simp
    | cons c t =>
      have : m + 1 + k = (m + k) + 1 := by omega
      rw [this]
      show c :: t.take (m + k) = c :: (t.take m ++ (t.drop m).take k)
      rw [ih t]


/-- Window lemma: a window of `bnmAux` entries whose last entry is
non-space collapses the original-text span from the window's first
recorded index through its last recorded index to exactly the window's
characters. -/
theorem bnmAux_window :
    ∀ (n : Nat) (l : List Char) (j : Nat) (W Q : List (Char × Nat))
      (cl : Char) (jl : Nat),
      l.length ≤ n →
      bnmAux l j false = W ++ Q →
      W.getLast? = some (cl, jl) →
      isSpace cl = false →
      collapseWS (l.take (jl + 1 - j)) = W.map Prod.fst := by
  intro n
  induction n with
  | zero =>
    intro l j W Q cl jl hl h hlast hns
    have : l = [] := List.eq_nil_of_length_eq_zero (Nat.le_zero.mp hl)
    subst this
    simp [bnmAux] at h
    rw [h.1] at hlast
    simp at hlast
  | succ n ih =>
    intro l j W Q cl jl hl h hlast hns
    cases l with
    | nil =>
      simp [bnmAux] at h
      rw [h.1] at hlast
      simp at hlast
    | cons c t =>
      cases W with
      | nil => simp at hlast
      | cons w W' =>
        have hlt : t.length ≤ n := by
          simp only [List.length_cons] at hl
          omega
        by_cases hc : isSpace c
        · rw [bnmAux_cons_ws_false' hc, List.cons_append] at h
          injection h with h1 h2
          have hw : w = (' ', j) := h1.symm
          subst hw
          cases W' with
          | nil =>
            rw [List.getLast?_singleton] at hlast
            have hcl : cl = ' ' :=
              (congrArg Prod.fst (Option.some.inj hlast)).symm
            rw [hcl] at hns
            exact absurd hns (by decide)
          | cons w2 W'' =>
            obtain ⟨c2, j2⟩ := w2
            rw [List.cons_append] at h2
            obtain ⟨hle, htail, hskip, hns2⟩ :=
              bnmAux_tail t (j + 1) true c2 j2 (W'' ++ Q) h2
            have hns2' : isSpace c2 = false := hns2 rfl
            have htail' : bnmAux (t.drop (j2 - (j + 1))) j2 false =
                ((c2, j2) :: W'') ++ Q := by
              rw [List.cons_append]; exact htail
            have hlast' : ((c2, j2) :: W'').getLast? = some (cl, jl) := by
              rw [← List.getLast?_cons_cons (a := (' ', j))]
              exact hlast
            have hldrop : (t.drop (j2 - (j + 1))).length ≤ n := by
              rw [List.length_drop]
              omega
            have ihres := ih (t.drop (j2 - (j + 1))) j2 ((c2, j2) :: W'') Q
              cl jl hldrop htail' hlast' hns
            have hmem : (cl, jl) ∈ (c2, j2) :: W'' :=
              List.mem_of_getLast?_eq_some hlast'
            have hmem2 : (cl, jl) ∈ bnmAux (t.drop (j2 - (j + 1))) j2 false := by
              rw [htail']
              exact List.mem_append_left _ hmem
            have hjl : j2 ≤ jl :=
              (bnmAux_snd_bound _ j2 false _ hmem2).1
            obtain ⟨hj2, y, ys, hys, hcase⟩ := bnmAux_head_shape htail'
            have hyc : c2 = y := by
              rcases hcase with ⟨hw1, hw2, _⟩ | ⟨_, hw2, _⟩
              · rw [hw2] at hns2'
                exact absurd hns2' (by decide)
              · exact hw2
            have hys' : t.drop (j2 - (j + 1)) = c2 :: ys := by
              rw [hys, ← hyc]
            have ha1 : jl + 1 - j = (jl - j) + 1 := by omega
            rw [ha1]
            show collapseAux (c :: t.take (jl - j)) false =
              ' ' :: ((c2, j2) :: W'').map Prod.fst
            have ha2 : jl - j = (j2 - (j + 1)) + (jl + 1 - j2) := by omega
            rw [ha2, take_split]
            have hwsrun : ∀ d ∈ c :: t.take (j2 - (j + 1)),
                isSpace d = true := by
              intro d hd
              rcases List.mem_cons.mp hd with hdh | hdh
              · subst hdh; exact hc
              · exact hskip d hdh
            show collapseAux ((c :: t.take (j2 - (j + 1))) ++
              (t.drop (j2 - (j + 1))).take (jl + 1 - j2)) false =
              ' ' :: ((c2, j2) :: W'').map Prod.fst
            rw [collapseAux_ws_false _ (by simp) hwsrun]
            have hX : (t.drop (j2 - (j + 1))).take (jl + 1 - j2) =
                c2 :: ys.take (jl - j2) := by
              rw [hys']
              have harith : jl + 1 - j2 = (jl - j2) + 1 := by omega
              rw [harith]
              rfl
            have heq : collapseAux
                ((t.drop (j2 - (j + 1))).take (jl + 1 - j2)) true =
                collapseAux
                ((t.drop (j2 - (j + 1))).take (jl + 1 - j2)) false := by
              rw [hX, collapseAux_nonspace hns2', collapseAux_nonspace hns2']
            rw [heq]
            show ' ' :: collapseWS
              ((t.drop (j2 - (j + 1))).take (jl + 1 - j2)) =
              ' ' :: ((c2, j2) :: W'').map Prod.fst
            rw [ihres]
        · have hc' : isSpace c = false := by simpa using hc
          rw [bnmAux_cons_nonspace hc', List.cons_append] at h
          injection h with h1 h2
          have hw : w = (c, j) := h1.symm
          subst hw
          cases W' with
          | nil =>
            rw [List.getLast?_singleton] at hlast
            have hcl : cl = c :=
              (congrArg Prod.fst (Option.some.inj hlast)).symm
            have hjl : jl = j :=
              (congrArg Prod.snd (Option.some.inj hlast)).symm
            rw [hjl]
            have harith : j + 1 - j = 1 := by omega
            rw [harith]
            show collapseAux [c] false = [c]
            rw [collapseAux_nonspace hc']
            rfl
          | cons w2 W'' =>
            obtain ⟨c2, j2⟩ := w2
            rw [List.cons_append] at h2
            have htail' : bnmAux t (j + 1) false = ((c2, j2) :: W'') ++ Q := by
              rw [List.cons_append]; exact h2
            have hlast' : ((c2, j2) :: W'').getLast? = some (cl, jl) := by
              rw [← List.getLast?_cons_cons (a := (c, j))]
              exact hlast
            have ihres := ih t (j + 1) ((c2, j2) :: W'') Q cl jl hlt
              htail' hlast' hns
            have hmem : (cl, jl) ∈ (c2, j2) :: W'' :=
              List.mem_of_getLast?_eq_some hlast'
            have hmem2 : (cl, jl) ∈ bnmAux t (j + 1) false := by
              rw [htail']
              exact List.mem_append_left _ hmem
            have hjl : j + 1 ≤ jl :=
              (bnmAux_snd_bound t (j + 1) false _ hmem2).1
            have ha1 : jl + 1 - j = (jl - j) + 1 := by omega
            rw [ha1]
            show collapseAux (c :: t.take (jl - j)) false =
              c :: ((c2, j2) :: W'').map Prod.fst
            rw [collapseAux_nonspace hc']
            have ha2 : jl - j = jl + 1 - (j + 1) := by omega
            rw [ha2]
            show c :: collapseWS (t.take (jl + 1 - (j + 1))) =
              c :: ((c2, j2) :: W'').map Prod.fst
            rw [ihres]

theorem tierOrElse_some (r : Nat × Nat) (normalized cand : List Char) :
    tierOrElse (some r) normalized cand = some r := rfl

theorem findSentenceRange_tier1 {text sentence : List Char}
    (hraw : ¬ normalizeForMatch sentence = [])
    (horig : ¬ (buildNormalizedMap text).2 = [])
    {idx : Nat}
    (hidx : firstIndexOf? (buildNormalizedMap text).1
      (normalizeForMatch sentence) = some idx) :
    findSentenceRange text sentence =
      toOrigRange (buildNormalizedMap text).2 idx
        (normalizeForMatch sentence).length := by
  show (if normalizeForMatch sentence = [] then none
    else if (buildNormalizedMap text).2 = [] then none
    else
      match tierOrElse (tierOrElse (tierOrElse
          (tierSearch (buildNormalizedMap text).1 (normalizeForMatch sentence))
          (buildNormalizedMap text).1
          (stripTrailingPunctuation (normalizeForMatch sentence)))
          (buildNormalizedMap text).1
          (stripQuotes (normalizeForMatch sentence)))
          (buildNormalizedMap text).1
          (stripTrailingPunctuation (stripQuotes (normalizeForMatch sentence)))
        with
      | none => findLongestPhraseInText (normalizeForMatch sentence)
          (buildNormalizedMap text).1 (buildNormalizedMap text).2
      | some (idx, matchLen) =>
        toOrigRange (buildNormalizedMap text).2 idx matchLen) =
    toOrigRange (buildNormalizedMap text).2 idx
      (normalizeForMatch sentence).length
  rw [if_neg hraw, if_neg horig]
  have h1 : tierSearch (buildNormalizedMap text).1
      (normalizeForMatch sentence) =
      some (idx, (normalizeForMatch sentence).length) := by
    show (firstIndexOf? (buildNormalizedMap text).1
      (normalizeForMatch sentence)).map
        (fun i => (i, (normalizeForMatch sentence).length)) =
      some (idx, (normalizeForMatch sentence).length)
    rw [hidx]
    rfl
  rw [h1, tierOrElse_some, tierOrElse_some, tierOrElse_some]

/-- Occurrence of the trimmed, collapsed fragment, derived from occurrence
of the collapsed fragment. -/
theorem normalizeForMatch_infix_of_collapse {T F : List Char}
    (h : collapseWS F <:+: collapseWS T) :
    normalizeForMatch F <:+: collapseWS T := by
  have h1 : normalizeForMatch F <:+: collapseWS (normalizeNewlines F) :=
    trim_infixOf _
  rw [collapseWS_normalizeNewlines] at h1
  exact h1.trans h

/-- C1 (amended): for every text `T` and fragment `F` whose collapsed form
occurs in the collapsed `T` and whose normalized (collapsed and trimmed)
form is non-empty, `findSentenceRange` returns a range, and normalizing
the original-text slice of that range yields exactly the normalized `F`. -/
theorem C1_findSentenceRange_locates (T F : List Char)
    (hocc : collapseWS F <:+: collapseWS T)
    (hne : normalizeForMatch F ≠ []) :
    ∃ s e, findSentenceRange T F = some (s, e) ∧
      normalizeForMatch ((T.drop s).take (e - s)) = normalizeForMatch F := by
  have hnorm : (buildNormalizedMap T).1 = collapseWS T :=
    bnmAux_map_fst T 0 false
  have hocc' : normalizeForMatch F <:+: (buildNormalizedMap T).1 := by
    rw [hnorm]
    exact normalizeForMatch_infix_of_collapse hocc
  obtain ⟨idx, hidx⟩ := firstIndexOf?_complete _ _ hocc'
  obtain ⟨hpre, hlen⟩ := firstIndexOf?_sound _ _ _ hidx
  have hlenpairs : (buildNormalizedMap T).1.length =
      (bnmAux T 0 false).length := by
    simp [buildNormalizedMap]
  have hlenorig : (buildNormalizedMap T).2.length =
      (bnmAux T 0 false).length := by
    simp [buildNormalizedMap]
  have hrawlen : 1 ≤ (normalizeForMatch F).length :=
    Nat.one_le_iff_ne_zero.mpr (by simpa using hne)
  have horig : ¬ (buildNormalizedMap T).2 = [] := by
    intro hcontra
    have hlen0 : (bnmAux T 0 false).length = 0 := by
      rw [← hlenorig, hcontra]
      rfl
    rw [hlenpairs, hlen0] at hlen
    omega
  have heval := findSentenceRange_tier1 (by simpa using hne) horig hidx
  -- decompose the entry list around the match
  have hpre' : normalizeForMatch F <+:
      ((buildNormalizedMap T).1.drop idx) :=
    List.isPrefixOf_iff_prefix.mp hpre
  obtain ⟨r, hr⟩ := hpre'
  set pairs := bnmAux T 0 false with hpairs
  set len := (normalizeForMatch F).length with hlendef
  have hidxlen : idx + len ≤ pairs.length := by
    rw [← hlenpairs]
    exact hlen
  set P := pairs.take idx with hP
  set rest := pairs.drop idx with hrest
  set W := rest.take len with hW
  set Q' := rest.drop len with hQ'
  have hsplit1 : pairs = P ++ rest := (List.take_append_drop idx pairs).symm
  have hsplit2 : rest = W ++ Q' := (List.take_append_drop len rest).symm
  have hrestlen : len ≤ rest.length := by
    rw [hrest, List.length_drop]
    omega
  have hWfst : W.map Prod.fst = normalizeForMatch F := by
    rw [hW, List.map_take, hrest, List.map_drop]
    have : (pairs.map Prod.fst) = (buildNormalizedMap T).1 := rfl
    rw [this, ← hr]
    exact List.take_left' hlendef.symm
  have hWlen : W.length = len := by
    rw [hW, List.length_take]
    omega
  have hWne : W ≠ [] := by
    intro hcontra
    rw [hcontra] at hWlen
    simp at hWlen
    omega
  obtain ⟨⟨cl, jl⟩, hlastW⟩ : ∃ p : Char × Nat, W.getLast? = some p := by
    cases hWl : W.getLast? with
    | none => exact absurd (List.getLast?_eq_none_iff.mp hWl) hWne
    | some p => exact ⟨p, rfl⟩
  have hclspace : isSpace cl = false := by
    have hrawlast : (normalizeForMatch F).getLast? = some cl := by
      rw [← hWfst, List.getLast?_map, hlastW]
      rfl
    exact trim_getLast_not hrawlast
  have hdecomp : bnmAux T 0 false = P ++ (W ++ Q') := by
    rw [← hsplit2, ← hsplit1]
  obtain ⟨m, b₂, hm, hWQ⟩ := bnmAux_peel T 0 false P (W ++ Q') hdecomp
  cases hWcons : W with
  | nil => exact absurd hWcons hWne
  | cons w W₂ =>
    obtain ⟨cw, jw⟩ := w
    rw [hWcons] at hWQ
    have hWQ' : bnmAux (T.drop m) (0 + m) b₂ = (cw, jw) :: (W₂ ++ Q') := by
      rw [← hWQ, List.cons_append]
    obtain ⟨hmjw, htail, hskip0, hflag0⟩ :=
      bnmAux_tail (T.drop m) (0 + m) b₂ cw jw (W₂ ++ Q') hWQ'
    have hdropdrop : (T.drop m).drop (jw - (0 + m)) = T.drop jw := by
      rw [List.drop_drop]
      congr 1
      omega
    have htail2 : bnmAux (T.drop jw) jw false = W ++ Q' := by
      rw [← hdropdrop, htail, hWcons, List.cons_append]
    have hwin := bnmAux_window (T.drop jw).length (T.drop jw) jw W Q'
      cl jl (le_refl _) htail2 (by rw [hWcons] at hlastW ⊢; exact hlastW)
      hclspace
    -- translate the two getD lookups
    have horiglist : (buildNormalizedMap T).2 = pairs.map Prod.snd := rfl
    have hPlen : (P.map Prod.snd).length = idx := by
      rw [List.length_map, hP, List.length_take]
      omega
    have hrestsnd : rest.map Prod.snd = jw :: (W₂ ++ Q').map Prod.snd := by
      rw [hsplit2, hWcons, List.cons_append, List.map_cons]
    have hsval : (buildNormalizedMap T).2.getD idx 0 = jw := by
      rw [horiglist, hsplit1, List.map_append,
        List.getD_eq_getElem?_getD,
        List.getElem?_append_right (by omega)]
      rw [hPlen]
      have harith0 : idx - idx = 0 := by omega
      rw [harith0, hrestsnd]
      simp
    have heval2 : (buildNormalizedMap T).2.getD (idx + len - 1) 0 = jl := by
      rw [horiglist, hsplit1, List.map_append,
        List.getD_eq_getElem?_getD,
        List.getElem?_append_right (by omega)]
      rw [hPlen]
      have harith : idx + len - 1 - idx = len - 1 := by omega
      rw [harith, hsplit2, List.map_append,
        List.getElem?_append_left
          (by rw [List.length_map, hWlen]; omega)]
      have hWlast : (W.map Prod.snd).getLast? = some jl := by
        rw [List.getLast?_map, hlastW]
        rfl
      rw [List.getLast?_eq_getElem?] at hWlast
      rw [List.length_map, hWlen] at hWlast
      rw [hWlast]
      rfl
    have hto : toOrigRange (buildNormalizedMap T).2 idx len =
        some (jw, jl + 1) := by
      unfold toOrigRange
      rw [if_neg (by rw [hlenorig]; omega)]
      rw [hsval, heval2]
    refine ⟨jw, jl + 1, ?_, ?_⟩
    · rw [heval]
      exact hto
    · have hslice : (jl + 1) - jw = jl + 1 - jw := rfl
      show normalizeForMatch ((T.drop jw).take (jl + 1 - jw)) =
        normalizeForMatch F
      show trim (collapseWS (normalizeNewlines
        ((T.drop jw).take (jl + 1 - jw)))) = normalizeForMatch F
      rw [collapseWS_normalizeNewlines, hwin, hWfst]
      show trim (trim (collapseWS (normalizeNewlines F))) =
        trim (collapseWS (normalizeNewlines F))
      exact trim_trim _

/-- Witness for C1 at a concrete text and fragment. -/
theorem C1_findSentenceRange_locates_witness :
    ∃ s e, findSentenceRange ['s', 'a', 'y', ' ', 'a', 'b', 'c']
        ['a', 'b', 'c'] = some (s, e) ∧
      normalizeForMatch ((['s', 'a', 'y', ' ', 'a', 'b', 'c'].drop s).take
        (e - s)) = normalizeForMatch ['a', 'b', 'c'] :=
  C1_findSentenceRange_locates ['s', 'a', 'y', ' ', 'a', 'b', 'c']
    ['a', 'b', 'c'] (by decide) (by decide)

/-- Counterexample to C1 as stated: the whitespace-only fragment collapses
to a single space, which is a contiguous substring of the collapsed text
`"a b"`, yet the locator returns `none` (its tier 0 rejects fragments that
are empty after trimming). -/
theorem C1_findSentenceRange_counterexample :
    collapseWS [' '] <:+: collapseWS ['a', ' ', 'b'] ∧
    findSentenceRange ['a', ' ', 'b'] [' '] = none := by
  constructor
  · decide
  · rfl

/-! ### Tier chain lemmas (claim C7) -/

theorem tierSearch_bound {normalized cand : List Char} {i ml : Nat}
    (h : tierSearch normalized cand = some (i, ml)) :
    i + ml ≤ normalized.length := by
  unfold tierSearch at h
  cases hf : firstIndexOf? normalized cand with
  | none => rw [hf] at h; simp at h
  | some j =>
    rw [hf] at h
    have hj : j = i ∧ cand.length = ml := by
      have := Option.some.inj h
      exact ⟨congrArg Prod.fst this, congrArg Prod.snd this⟩
    have hb := (firstIndexOf?_sound cand normalized j hf).2
    omega

theorem tierOrElse_bound {prev : Option (Nat × Nat)}
    {normalized cand : List Char} {i ml : Nat}
    (hprev : ∀ i' ml', prev = some (i', ml') → i' + ml' ≤ normalized.length)
    (h : tierOrElse prev normalized cand = some (i, ml)) :
    i + ml ≤ normalized.length := by
  unfold tierOrElse at h
  cases prev with
  | some r => exact hprev i ml h
  | none =>
    by_cases hc : cand = []
    · rw [if_pos hc] at h; simp at h
    · rw [if_neg hc] at h
      exact tierSearch_bound h

theorem tierOrElse_isSome_left {prev : Option (Nat × Nat)}
    {normalized cand : List Char} (h : prev.isSome = true) :
    (tierOrElse prev normalized cand).isSome = true := by
  cases prev with
  | none => simp at h
  | some r => rfl

theorem tierOrElse_isSome_right {prev : Option (Nat × Nat)}
    {normalized cand : List Char} (hcand : ¬ cand = [])
    (hfind : ∃ j, firstIndexOf? normalized cand = some j) :
    (tierOrElse prev normalized cand).isSome = true := by
  cases prev with
  | some r => rfl
  | none =>
    obtain ⟨j, hj⟩ := hfind
    show (if cand = [] then none else tierSearch normalized cand).isSome = true
    rw [if_neg hcand]
    unfold tierSearch
    rw [hj]
    rfl

theorem findSentenceRange_eval {text sentence : List Char}
    (hraw : ¬ normalizeForMatch sentence = [])
    (horig : ¬ (buildNormalizedMap text).2 = []) :
    findSentenceRange text sentence =
      match tierOrElse (tierOrElse (tierOrElse
          (tierSearch (buildNormalizedMap text).1 (normalizeForMatch sentence))
          (buildNormalizedMap text).1
          (stripTrailingPunctuation (normalizeForMatch sentence)))
          (buildNormalizedMap text).1
          (stripQuotes (normalizeForMatch sentence)))
          (buildNormalizedMap text).1
          (stripTrailingPunctuation (stripQuotes (normalizeForMatch sentence)))
        with
      | none => findLongestPhraseInText (normalizeForMatch sentence)
          (buildNormalizedMap text).1 (buildNormalizedMap text).2
      | some (idx, matchLen) =>
        toOrigRange (buildNormalizedMap text).2 idx matchLen := by
  show (if normalizeForMatch sentence = [] then none
    else if (buildNormalizedMap text).2 = [] then none
    else _) = _
  rw [if_neg hraw, if_neg horig]

/-- C7 (amended): the quote-stripping tier removes leading and trailing
whitespace, straight double quotes, straight single quotes, curly double
quotes and guillemets (curly single quotes are not in the stripped set);
every fragment whose quote-stripped normalized form is non-empty and
occurs in the normalized text is located by the tiers up to tier 3. -/
theorem C7_stripQuotes_tier_locates :
    (∀ (text fragment : List Char),
      stripQuotes (normalizeForMatch fragment) ≠ [] →
      stripQuotes (normalizeForMatch fragment) <:+:
        (buildNormalizedMap text).1 →
      (findSentenceRange text fragment).isSome = true) ∧
    stripQuotes [Char.ofNat 34, 'h', 'i', Char.ofNat 34] = ['h', 'i'] ∧
    stripQuotes [Char.ofNat 39, 'h', 'i', Char.ofNat 39] = ['h', 'i'] ∧
    stripQuotes [Char.ofNat 0x201c, 'h', 'i', Char.ofNat 0x201d] =
      ['h', 'i'] ∧
    stripQuotes [Char.ofNat 0xab, 'h', 'i', Char.ofNat 0xbb] = ['h', 'i'] ∧
    stripQuotes [Char.ofNat 0x2018, 'h', 'i', Char.ofNat 0x2019] ≠
      ['h', 'i'] := by
  refine ⟨?_, by decide, by decide, by decide, by decide, by decide⟩
  intro text fragment hq hocc
  have hraw : ¬ normalizeForMatch fragment = [] := by
    intro hcontra
    rw [hcontra] at hq
    exact hq rfl
  have hqlen : 1 ≤ (stripQuotes (normalizeForMatch fragment)).length :=
    Nat.one_le_iff_ne_zero.mpr (by simpa using hq)
  have hocclen := hocc.sublist.length_le
  have hlennorm : (buildNormalizedMap text).1.length =
      (buildNormalizedMap text).2.length := by
    simp [buildNormalizedMap]
  have horig : ¬ (buildNormalizedMap text).2 = [] := by
    intro hcontra
    have h0 : (buildNormalizedMap text).1.length = 0 := by
      rw [hlennorm, hcontra]
      rfl
    rw [h0] at hocclen
    omega
  rw [findSentenceRange_eval hraw horig]
  have hfind := firstIndexOf?_complete _ _ hocc
  have ht3 : (tierOrElse (tierOrElse
      (tierSearch (buildNormalizedMap text).1 (normalizeForMatch fragment))
      (buildNormalizedMap text).1
      (stripTrailingPunctuation (normalizeForMatch fragment)))
      (buildNormalizedMap text).1
      (stripQuotes (normalizeForMatch fragment))).isSome = true :=
    tierOrElse_isSome_right (by simpa using hq) hfind
  have ht4 : (tierOrElse (tierOrElse (tierOrElse
      (tierSearch (buildNormalizedMap text).1 (normalizeForMatch fragment))
      (buildNormalizedMap text).1
      (stripTrailingPunctuation (normalizeForMatch fragment)))
      (buildNormalizedMap text).1
      (stripQuotes (normalizeForMatch fragment)))
      (buildNormalizedMap text).1
      (stripTrailingPunctuation
        (stripQuotes (normalizeForMatch fragment)))).isSome = true :=
    tierOrElse_isSome_left ht3
  obtain ⟨⟨idx, ml⟩, ht4eq⟩ := Option.isSome_iff_exists.mp ht4
  have hbound : idx + ml ≤ (buildNormalizedMap text).1.length := by
    refine tierOrElse_bound ?_ ht4eq
    intro i' ml' h3
    refine tierOrElse_bound ?_ h3
    intro i'' ml'' h2
    refine tierOrElse_bound ?_ h2
    intro i3 ml3 h1
    exact tierSearch_bound h1
  rw [ht4eq]
  show (toOrigRange (buildNormalizedMap text).2 idx ml).isSome = true
  unfold toOrigRange
  rw [if_neg (by omega)]
  rfl

/-- Witness for C7 at a concrete text and quoted fragment. -/
theorem C7_stripQuotes_tier_locates_witness :
    (findSentenceRange ['s', 'a', 'y', ' ', 'h', 'i']
      [Char.ofNat 34, 'h', 'i', Char.ofNat 34]).isSome = true :=
  C7_stripQuotes_tier_locates.1 ['s', 'a', 'y', ' ', 'h', 'i']
    [Char.ofNat 34, 'h', 'i', Char.ofNat 34] (by decide) (by decide)

/-- Counterexample to C7 as stated: a fragment quoted with curly single
quotes, whose inner phrase occurs verbatim in the text, is not located at
all — the curly single quotes are not in the stripped character class. -/
theorem C7_stripQuotes_counterexample :
    ['h', 'e', 'l', 'l', 'o'] <:+:
      collapseWS ['s', 'a', 'y', ' ', 'h', 'e', 'l', 'l', 'o', ' ',
        'n', 'o', 'w'] ∧
    findSentenceRange
      ['s', 'a', 'y', ' ', 'h', 'e', 'l', 'l', 'o', ' ', 'n', 'o', 'w']
      [Char.ofNat 0x2018, 'h', 'e', 'l', 'l', 'o', Char.ofNat 0x2019] =
      none := by
  constructor
  · decide
  · rfl

/-! ### Parser lemmas (claims C4, C6, C9) -/

/-- Per-chunk question extraction (the update a single brace span can make
to the accumulated question). -/
def extractQuestion (chunk : List Char) : Option (List Char) :=
  match jsonParse chunk with
  | some (.obj fields) => objQuestion fields
  | _ => none

/-- Per-chunk sentence extraction. -/
def extractSentences (chunk : List Char) : List (List Char) :=
  match jsonParse chunk with
  | some (.obj fields) => objSentences fields
  | _ => []

theorem chunkUpdate_eq (acc : List Char × List (List Char))
    (chunk : List Char) :
    chunkUpdate acc chunk =
      ((extractQuestion chunk).getD acc.1,
        acc.2 ++ extractSentences chunk) := by
  unfold chunkUpdate extractQuestion extractSentences
  cases jsonParse chunk with
  | none => simp
  | some j => cases j <;> simp

theorem getLast?_cons_getD (q : List Char) (l : List (List Char))
    (d : List Char) :
    ((q :: l).getLast?).getD d = (l.getLast?).getD q := by
  cases l with
  | nil => simp
  | cons x xs =>
    rw [List.getLast?_cons_cons]
    cases hl : (x :: xs).getLast? with
    | none => exact absurd (List.getLast?_eq_none_iff.mp hl) (by simp)
    | some y => simp

theorem foldl_chunkUpdate_fst (cs : List (List Char)) :
    ∀ (acc : List Char × List (List Char)),
      (cs.foldl chunkUpdate acc).1 =
        ((cs.filterMap extractQuestion).getLast?).getD acc.1 := by
  induction cs with
  | nil => intro acc; simp
  | cons c cs' ih =>
    intro acc
    rw [List.foldl_cons, ih, chunkUpdate_eq]
    cases hc : extractQuestion c with
    | none => simp [List.filterMap_cons, hc]
    | some q =>
      simp only [List.filterMap_cons, hc, Option.getD_some]
      rw [getLast?_cons_getD]

theorem foldl_chunkUpdate_snd (cs : List (List Char)) :
    ∀ (acc : List Char × List (List Char)),
      (cs.foldl chunkUpdate acc).2 =
        acc.2 ++ (cs.map extractSentences).flatten := by
  induction cs with
  | nil => intro acc; simp
  | cons c cs' ih =>
    intro acc
    rw [List.foldl_cons, ih, chunkUpdate_eq]
    simp [List.append_assoc]

theorem objQuestion_prop {fields : List (List Char × Json)} {q : List Char}
    (h : objQuestion fields = some q) : trim q = q ∧ q ≠ [] := by
  unfold objQuestion at h
  split at h
  · rename_i s heq
    split at h
    · simp at h
    · rename_i hs
      have hq : trim s = q := Option.some.inj h
      subst hq
      exact ⟨trim_trim s, hs⟩
  · simp at h

theorem extractQuestion_ne_nil {chunk q : List Char}
    (h : extractQuestion chunk = some q) : trim q = q ∧ q ≠ [] := by
  unfold extractQuestion at h
  split at h
  · rename_i fields heq
    exact objQuestion_prop h
  · simp at h

theorem objSentences_all (fields : List (List Char × Json)) :
    ∀ s ∈ objSentences fields, trim s = s ∧ s ≠ [] := by
  intro s hs
  unfold objSentences at hs
  split at hs
  · rename_i items heq
    obtain ⟨j, _, hj⟩ := List.mem_filterMap.mp hs
    split at hj
    · rename_i s' heq2
      split at hj
      · simp at hj
      · rename_i hs'
        have : trim s' = s := Option.some.inj hj
        subst this
        exact ⟨trim_trim s', hs'⟩
    · simp at hj
  · simp at hs

theorem extractSentences_all (chunk : List Char) :
    ∀ s ∈ extractSentences chunk, trim s = s ∧ s ≠ [] := by
  intro s hs
  unfold extractSentences at hs
  split at hs
  · rename_i fields heq
    exact objSentences_all fields s hs
  · simp at hs

/-- The scenario input `{"question":"A?"}{"question":"B?","sentences":["x","y"]}`. -/
def c4input : List Char :=
  [lbrace, dquote] ++ questionKey ++
    [dquote, ':', dquote, 'A', '?', dquote, rbrace, lbrace, dquote] ++
    questionKey ++
    [dquote, ':', dquote, 'B', '?', dquote, ',', dquote] ++ sentencesKey ++
    [dquote, ':', '[', dquote, 'x', dquote, ',', dquote, 'y', dquote, ']',
     rbrace]

/-- C4: over the brace-balanced spans of the cleaned model output, the
parser keeps the last non-empty question and concatenates the sentences of
all valid objects in order of appearance (duplicates permitted); in
particular `{"question":"A?"}{"question":"B?","sentences":["x","y"]}`
yields question `B?` and sentences `x`, `y`. -/
theorem C4_parse_multi_object :
    (∀ raw : List Char,
      ((scanChunks (cleanedStr raw)).filterMap extractQuestion ≠ [] ∨
        ((scanChunks (cleanedStr raw)).map extractSentences).flatten ≠ []) →
      parseThoughtResponse raw =
        ((((scanChunks (cleanedStr raw)).filterMap
            extractQuestion).getLast?).getD [],
         ((scanChunks (cleanedStr raw)).map extractSentences).flatten)) ∧
    parseThoughtResponse c4input = (['B', '?'], [['x'], ['y']]) := by
  constructor
  · intro raw hne
    have hfst := foldl_chunkUpdate_fst (scanChunks (cleanedStr raw)) ([], [])
    have hsnd := foldl_chunkUpdate_snd (scanChunks (cleanedStr raw)) ([], [])
    have hcond : ¬ (((scanChunks (cleanedStr raw)).foldl
        chunkUpdate ([], [])).1 = [] ∧
        ((scanChunks (cleanedStr raw)).foldl chunkUpdate ([], [])).2 = []) := by
      rcases hne with hq | hss
      · intro ⟨h1, _⟩
        rw [hfst] at h1
        cases hl : ((scanChunks (cleanedStr raw)).filterMap
            extractQuestion).getLast? with
        | none => exact hq (List.getLast?_eq_none_iff.mp hl)
        | some q =>
          rw [hl] at h1
          have hmem := List.mem_of_getLast?_eq_some hl
          obtain ⟨c, _, hc⟩ := List.mem_filterMap.mp hmem
          have := (extractQuestion_ne_nil hc).2
          exact this (by simpa using h1)
      · intro ⟨_, h2⟩
        rw [hsnd] at h2
        exact hss (by simpa using h2)
    show (if ((scanChunks (cleanedStr raw)).foldl chunkUpdate ([], [])).1 = []
        ∧ ((scanChunks (cleanedStr raw)).foldl chunkUpdate ([], [])).2 = []
      then _ else (scanChunks (cleanedStr raw)).foldl chunkUpdate ([], [])) = _
    rw [if_neg hcond]
    have : (scanChunks (cleanedStr raw)).foldl chunkUpdate ([], []) =
        (((scanChunks (cleanedStr raw)).foldl chunkUpdate ([], [])).1,
         ((scanChunks (cleanedStr raw)).foldl chunkUpdate ([], [])).2) := rfl
    rw [this, hfst, hsnd]
    rfl
  · rfl

/-- Witness for C4 at the concrete scenario input. -/
theorem C4_parse_multi_object_witness :
    parseThoughtResponse c4input =
      ((((scanChunks (cleanedStr c4input)).filterMap
          extractQuestion).getLast?).getD [],
       ((scanChunks (cleanedStr c4input)).map extractSentences).flatten) :=
  C4_parse_multi_object.1 c4input (by decide)

theorem freeTextFallback_pos {str : List Char}
    (h : trim str ≠ [] ∧ (trim str).head? ≠ some lbrace) :
    freeTextFallback str = (trim str, []) := by
  show (if trim str ≠ [] ∧ (trim str).head? ≠ some lbrace
    then (trim str, ([] : List (List Char))) else ([], [])) = (trim str, [])
  rw [if_pos h]

theorem freeTextFallback_neg {str : List Char}
    (h : ¬ (trim str ≠ [] ∧ (trim str).head? ≠ some lbrace)) :
    freeTextFallback str = ([], []) := by
  show (if trim str ≠ [] ∧ (trim str).head? ≠ some lbrace
    then (trim str, ([] : List (List Char))) else ([], [])) = ([], [])
  rw [if_neg h]

theorem freeTextFallback_prop (str : List Char) :
    trim (freeTextFallback str).1 = (freeTextFallback str).1 ∧
    ∀ s ∈ (freeTextFallback str).2, trim s = s ∧ s ≠ [] := by
  by_cases h : trim str ≠ [] ∧ (trim str).head? ≠ some lbrace
  · rw [freeTextFallback_pos h]
    exact ⟨trim_trim str, by simp⟩
  · rw [freeTextFallback_neg h]
    exact ⟨rfl, by simp⟩

theorem extractFromJson_prop {j : Json} {r : List Char × List (List Char)}
    (h : extractFromJson j = some r) :
    trim r.1 = r.1 ∧ ∀ s ∈ r.2, trim s = s ∧ s ≠ [] := by
  cases j with
  | null => simp [extractFromJson] at h
  | obj fields =>
    have hr : ((objQuestion fields).getD [], objSentences fields) = r :=
      Option.some.inj h
    subst hr
    constructor
    · cases hq : objQuestion fields with
      | none => rfl
      | some q =>
        simp only [hq, Option.getD_some]
        exact (objQuestion_prop hq).1
    · exact objSentences_all fields
  | bool b =>
    have hr : (([] : List Char), ([] : List (List Char))) = r :=
      Option.some.inj h
    subst hr
    exact ⟨rfl, by simp⟩
  | num lx =>
    have hr : (([] : List Char), ([] : List (List Char))) = r :=
      Option.some.inj h
    subst hr
    exact ⟨rfl, by simp⟩
  | str s =>
    have hr : (([] : List Char), ([] : List (List Char))) = r :=
      Option.some.inj h
    subst hr
    exact ⟨rfl, by simp⟩
  | arr items =>
    have hr : (([] : List Char), ([] : List (List Char))) = r :=
      Option.some.inj h
    subst hr
    exact ⟨rfl, by simp⟩

/-- C9: `parseThoughtResponse` is total (it is a Lean function on all of
`List Char`), its question field is always trimmed, and its sentence list
contains only trimmed, non-empty strings. -/
theorem C9_parse_total_trimmed (raw : List Char) :
    trim (parseThoughtResponse raw).1 = (parseThoughtResponse raw).1 ∧
    ∀ s ∈ (parseThoughtResponse raw).2, trim s = s ∧ s ≠ [] := by
  by_cases hcond : ((scanChunks (cleanedStr raw)).foldl
      chunkUpdate ([], [])).1 = [] ∧
      ((scanChunks (cleanedStr raw)).foldl chunkUpdate ([], [])).2 = []
  · cases hjp : jsonParse (cleanedStr raw) with
    | none =>
      have heq : parseThoughtResponse raw =
          freeTextFallback (cleanedStr raw) := by
        show (if ((scanChunks (cleanedStr raw)).foldl
            chunkUpdate ([], [])).1 = [] ∧
            ((scanChunks (cleanedStr raw)).foldl chunkUpdate ([], [])).2 = []
          then _ else _) = _
        rw [if_pos hcond, hjp]
      rw [heq]
      exact freeTextFallback_prop _
    | some j =>
      cases hex : extractFromJson j with
      | none =>
        have heq : parseThoughtResponse raw =
            freeTextFallback (cleanedStr raw) := by
          show (if ((scanChunks (cleanedStr raw)).foldl
              chunkUpdate ([], [])).1 = [] ∧
              ((scanChunks (cleanedStr raw)).foldl chunkUpdate ([], [])).2 = []
            then _ else _) = _
          rw [if_pos hcond, hjp]
          show (match extractFromJson j with
            | some r => r
            | none => freeTextFallback (cleanedStr raw)) =
            freeTextFallback (cleanedStr raw)
          rw [hex]
        rw [heq]
        exact freeTextFallback_prop _
      | some r =>
        have heq : parseThoughtResponse raw = r := by
          show (if ((scanChunks (cleanedStr raw)).foldl
              chunkUpdate ([], [])).1 = [] ∧
              ((scanChunks (cleanedStr raw)).foldl chunkUpdate ([], [])).2 = []
            then _ else _) = _
          rw [if_pos hcond, hjp]
          show (match extractFromJson j with
            | some r => r
            | none => freeTextFallback (cleanedStr raw)) = r
          rw [hex]
        rw [heq]
        exact extractFromJson_prop hex
  · have heq : parseThoughtResponse raw =
        (scanChunks (cleanedStr raw)).foldl chunkUpdate ([], []) := by
      show (if ((scanChunks (cleanedStr raw)).foldl
          chunkUpdate ([], [])).1 = [] ∧
          ((scanChunks (cleanedStr raw)).foldl chunkUpdate ([], [])).2 = []
        then _ else _) = _
      rw [if_neg hcond]
    rw [heq]
    constructor
    · rw [foldl_chunkUpdate_fst]
      cases hl : ((scanChunks (cleanedStr raw)).filterMap
          extractQuestion).getLast? with
      | none => rfl
      | some q =>
        simp only [Option.getD_some]
        have hmem := List.mem_of_getLast?_eq_some hl
        obtain ⟨c, _, hc⟩ := List.mem_filterMap.mp hmem
        exact (extractQuestion_ne_nil hc).1
    · intro s hs
      rw [foldl_chunkUpdate_snd] at hs
      simp only [List.nil_append] at hs
      obtain ⟨l, hl, hsl⟩ := List.mem_flatten.mp hs
      obtain ⟨c, _, hc⟩ := List.mem_map.mp hl
      subst hc
      exact extractSentences_all c s hsl

/-- Witness for C9 at a concrete input with a non-empty sentence list. -/
theorem C9_parse_total_trimmed_witness :
    trim (parseThoughtResponse c4input).1 = (parseThoughtResponse c4input).1 ∧
    (trim ['x'] = ['x'] ∧ ('x' :: ([] : List Char)) ≠ []) :=
  ⟨(C9_parse_total_trimmed c4input).1,
   (C9_parse_total_trimmed c4input).2 ['x'] (by decide)⟩

theorem freeTextFallback_eq (str : List Char) :
    freeTextFallback str =
      ((if (trim str).head? = some lbrace then [] else trim str), []) := by
  by_cases hb : (trim str).head? = some lbrace
  · rw [if_pos hb, freeTextFallback_neg (fun h => h.2 hb)]
  · rw [if_neg hb]
    by_cases ht : trim str = []
    · rw [freeTextFallback_neg (fun h => h.1 ht), ht]
    · rw [freeTextFallback_pos ⟨ht, hb⟩]

/-- C6 (amended): when the brace-span scan found neither a question nor
any sentences and the whole-string parse attempt fails (a parse error, or
a `null` result whose property access throws), the trimmed string becomes
the question exactly when it does not START with an opening brace (not:
contain one); the sentence list is empty. -/
theorem C6_freetext_brace_guard :
    ∀ raw : List Char,
      (scanChunks (cleanedStr raw)).foldl chunkUpdate ([], []) = ([], []) →
      (jsonParse (cleanedStr raw) = none ∨
        jsonParse (cleanedStr raw) = some Json.null) →
      parseThoughtResponse raw =
        ((if (trim (cleanedStr raw)).head? = some lbrace then []
          else trim (cleanedStr raw)), []) := by
  intro raw hacc hfail
  have hcond : ((scanChunks (cleanedStr raw)).foldl
      chunkUpdate ([], [])).1 = [] ∧
      ((scanChunks (cleanedStr raw)).foldl chunkUpdate ([], [])).2 = [] := by
    rw [hacc]
    exact ⟨rfl, rfl⟩
  rcases hfail with hjp | hjp
  · have heq : parseThoughtResponse raw =
        freeTextFallback (cleanedStr raw) := by
      show (if ((scanChunks (cleanedStr raw)).foldl
          chunkUpdate ([], [])).1 = [] ∧
          ((scanChunks (cleanedStr raw)).foldl chunkUpdate ([], [])).2 = []
        then _ else _) = _
      rw [if_pos hcond, hjp]
    rw [heq, freeTextFallback_eq]
  · have heq : parseThoughtResponse raw =
        freeTextFallback (cleanedStr raw) := by
      show (if ((scanChunks (cleanedStr raw)).foldl
          chunkUpdate ([], [])).1 = [] ∧
          ((scanChunks (cleanedStr raw)).foldl chunkUpdate ([], [])).2 = []
        then _ else _) = _
      rw [if_pos hcond, hjp]
      show (match extractFromJson Json.null with
        | some r => r
        | none => freeTextFallback (cleanedStr raw)) =
        freeTextFallback (cleanedStr raw)
      rfl
    rw [heq, freeTextFallback_eq]

/-- The input `hello {world`: it contains an opening brace but does not
start with one, the brace scan finds no balanced span, and the whole
string is not JSON. -/
def c6bad : List Char :=
  ['h', 'e', 'l', 'l', 'o', ' ', lbrace, 'w', 'o', 'r', 'l', 'd']

/-- The brace-free input `hi there`. -/
def c6good : List Char := ['h', 'i', ' ', 't', 'h', 'e', 'r', 'e']

/-- Counterexample to C6 as stated: `hello {world` contains an opening
brace, the brace scan yields nothing and the whole-string parse fails, yet
the free-text fallback IS taken — the code only tests whether the trimmed
string STARTS with a brace. -/
theorem C6_freetext_counterexample :
    (scanChunks (cleanedStr c6bad)).foldl chunkUpdate ([], []) = ([], []) ∧
    jsonParse (cleanedStr c6bad) = none ∧
    lbrace ∈ c6bad ∧
    parseThoughtResponse c6bad = (c6bad, []) := by
  refine ⟨rfl, rfl, by decide, rfl⟩

/-- Witness for C6 at a brace-free input. -/
theorem C6_freetext_brace_guard_witness :
    parseThoughtResponse c6good =
      ((if (trim (cleanedStr c6good)).head? = some lbrace then []
        else trim (cleanedStr c6good)), []) :=
  C6_freetext_brace_guard c6good rfl (Or.inl rfl)

/-! ### Fallback lemmas (claim C5) -/

theorem findRanges_eq (text : List Char) (sentences : List (List Char)) :
    findRanges text sentences = mergeRanges (
      if locateAll text sentences = [] ∧ (trim text).length > 0 ∧
          sentences.length > 0 then
        match fallbackWordRange text (trim (sentences.headD [])) with
        | some r => [r]
        | none => []
      else locateAll text sentences) := rfl

theorem applyHighlightRanges_eq (text : List Char)
    (sentences : List (List Char)) :
    applyHighlightRanges text sentences =
      if trim text = [] ∨ sentences = [] then []
      else if findRanges text sentences = [] then
        match (trim text).head? with
        | some c =>
          match firstIndexOf? text [c] with
          | some start =>
            if 0 < min 50 (trim text).length then
              [(start, start + min 50 (trim text).length)]
            else []
          | none => []
        | none => []
      else findRanges text sentences := rfl

theorem locateStep_fold_id (text : List Char) :
    ∀ (sentences : List (List Char)) (acc : List (Nat × Nat)),
      (∀ s ∈ sentences,
        trim s = [] ∨ findSentenceRange text (trim s) = none) →
      sentences.foldl (locateStep text) acc = acc := by
  intro sentences
  induction sentences with
  | nil => intro acc _; rfl
  | cons s ss ih =>
    intro acc h
    rw [List.foldl_cons]
    have htail := fun s' hs' => h s' (List.mem_cons_of_mem _ hs')
    have hstep : locateStep text acc s = acc := by
      rcases h s (List.mem_cons_self _ _) with h1 | h1
      · unfold locateStep
        rw [if_pos h1]
      · unfold locateStep
        by_cases h2 : trim s = []
        · rw [if_pos h2]
        · rw [if_neg h2, h1]
    rw [hstep]
    exact ih acc htail

theorem locateAll_eq_nil {text : List Char} {sentences : List (List Char)}
    (h : ∀ s ∈ sentences,
      trim s = [] ∨ findSentenceRange text (trim s) = none) :
    locateAll text sentences = [] :=
  locateStep_fold_id text sentences [] h

/-- C5 (amended): when no fragment locates but a fragment and
non-whitespace text exist, `findRanges` returns exactly the fallback word
range — the first occurrence of the first `> 2`-character word of the
first fragment whose punctuation-stripped form has length at least 3 and
occurs literally — and when no such word matches, `findRanges` is empty
but `applyHighlights` still decorates (the first `min(50, length)`
characters of the trimmed text), so a decoration is applied; in the
concrete case the non-occurring first word `zzz` is skipped and `abc` is
highlighted at its first occurrence. -/
theorem C5_fallback_behavior :
    (∀ (text : List Char) (sentences : List (List Char)),
      (∀ s ∈ sentences,
        trim s = [] ∨ findSentenceRange text (trim s) = none) →
      trim text ≠ [] →
      sentences ≠ [] →
      (findRanges text sentences =
        (match fallbackWordRange text (trim (sentences.headD [])) with
         | some r => [r]
         | none => []) ∧
       (fallbackWordRange text (trim (sentences.headD [])) = none →
        applyHighlightRanges text sentences ≠ []))) ∧
    findRanges ['s', 'a', 'y', ' ', 'a', 'b', 'c', ' ', 'd', 'e', 'f']
      [['z', 'z', 'z', ' ', 'a', 'b', 'c']] = [(4, 7)] := by
  constructor
  · intro text sentences hloc htext hsent
    have h0 : locateAll text sentences = [] := locateAll_eq_nil hloc
    have hcondpos : locateAll text sentences = [] ∧
        (trim text).length > 0 ∧ sentences.length > 0 := by
      refine ⟨h0, ?_, ?_⟩
      · cases htt : trim text with
        | nil => exact absurd htt htext
        | cons c cs => simp
      · cases hss : sentences with
        | nil => exact absurd hss hsent
        | cons s ss => simp
    have hfr : findRanges text sentences =
        (match fallbackWordRange text (trim (sentences.headD [])) with
         | some r => [r]
         | none => []) := by
      rw [findRanges_eq, if_pos hcondpos]
      cases hfw : fallbackWordRange text (trim (sentences.headD [])) with
      | some r => exact mergeRanges_single r
      | none => exact mergeRanges_nil
    refine ⟨hfr, ?_⟩
    intro hnone
    have hfr0 : findRanges text sentences = [] := by
      rw [hfr, hnone]
    rw [applyHighlightRanges_eq,
      if_neg (by
        intro hor
        rcases hor with h | h
        · exact htext h
        · exact hsent h),
      if_pos hfr0]
    cases hhead : (trim text).head? with
    | none =>
      rw [List.head?_eq_none_iff] at hhead
      exact absurd hhead htext
    | some c =>
      show (match firstIndexOf? text [c] with
        | some start =>
          if 0 < min 50 (trim text).length then
            [(start, start + min 50 (trim text).length)]
          else []
        | none => []) ≠ []
      have hcin : [c] <:+: text := by
        have h1 : [c] <+: trim text := by
          cases htt : trim text with
          | nil => exact absurd htt htext
          | cons d ds =>
            rw [htt] at hhead
            have : d = c := by simpa using hhead
            subst this
            exact ⟨ds, rfl⟩
        exact h1.isInfix.trans (trim_infixOf text)
      obtain ⟨i, hi⟩ := firstIndexOf?_complete [c] text hcin
      rw [hi]
      have hlen : 0 < min 50 (trim text).length := by
        have : 0 < (trim text).length := by
          cases htt : trim text with
          | nil => exact absurd htt htext
          | cons d ds => simp
        omega
      simp [hlen]
  · have h0 : locateAll ['s', 'a', 'y', ' ', 'a', 'b', 'c', ' ',
        'd', 'e', 'f'] [['z', 'z', 'z', ' ', 'a', 'b', 'c']] = [] := by
      decide
    rw [findRanges_eq, if_pos (by exact ⟨h0, by decide, by decide⟩)]
    show mergeRanges [(4, 7)] = [(4, 7)]
    exact mergeRanges_single (4, 7)

/-- The degenerate text and fragment list of the C5 counterexample. -/
def c5text : List Char :=
  ['h', 'e', 'l', 'l', 'o', ' ', 'w', 'o', 'r', 'l', 'd', ' ',
   'h', 'e', 'l', 'l', 'o']

/-- A fragment whose words are all too short for the word fallback. -/
def c5frag : List (List Char) := [['x', 'y']]

/-- Counterexample to C5 as stated: the word fallback yields no range and
`findRanges` is empty, yet a decoration IS applied — `applyHighlights`
falls back to the first `min(50, length)` characters instead of applying
no decoration at all. -/
theorem C5_fallback_counterexample :
    fallbackWordRange c5text (trim (c5frag.headD [])) = none ∧
    findRanges c5text c5frag = [] ∧
    applyHighlightRanges c5text c5frag = [(0, 17)] := by
  have hfr : findRanges c5text c5frag = [] := by
    rw [findRanges_eq, if_pos (by refine ⟨by decide, by decide, by decide⟩)]
    show mergeRanges [] = []
    exact mergeRanges_nil
  refine ⟨rfl, hfr, ?_⟩
  rw [applyHighlightRanges_eq, if_neg (by decide), if_pos hfr]
  decide

/-- Witness for C5 at the degenerate input. -/
theorem C5_fallback_behavior_witness :
    findRanges c5text c5frag =
      (match fallbackWordRange c5text (trim (c5frag.headD [])) with
       | some r => [r]
       | none => []) ∧
    applyHighlightRanges c5text c5frag ≠ [] :=
  ⟨(C5_fallback_behavior.1 c5text c5frag (by decide) (by decide)
      (by decide)).1,
   (C5_fallback_behavior.1 c5text c5frag (by decide) (by decide)
      (by decide)).2 rfl⟩

/-! ### Scheduler lemmas (claims C3 and C10) -/

theorem schedStep_input (s : EditorState) (nt : List Char) :
    schedStep s (.input nt) =
      if s.applyingHighlights then (s, 0)
      else ({ s with editorText := nt, thought := none,
                     debounceTimer := true }, 0) := rfl

theorem schedStep_timerFire (s : EditorState) :
    schedStep s .timerFire =
      if s.debounceTimer then triggerThought { s with debounceTimer := false }
      else (s, 0) := rfl

theorem schedStep_click (s : EditorState) :
    schedStep s .click =
      triggerThought { s with debounceTimer := false } := rfl

theorem schedStep_engineLoad (s : EditorState) :
    schedStep s .engineLoad = ({ s with engineLoaded := true }, 0) := rfl

theorem schedStep_completeOk (s : EditorState) (raw : List Char) :
    schedStep s (.completeOk raw) =
      if s.isGenerating then
        ({ s with
            thought := some
              ((if (parseThoughtResponse raw).1 = [] then defaultQuestion
                else (parseThoughtResponse raw).1),
               (parseThoughtResponse raw).2),
            isGenerating := false,
            outstanding := s.outstanding - 1,
            applyingHighlights :=
              (if (parseThoughtResponse raw).2 ≠ [] ∧
                  applyHighlightRanges s.editorText
                    (parseThoughtResponse raw).2 ≠ []
               then true else s.applyingHighlights) }, 0)
      else (s, 0) := rfl

theorem schedStep_completeErr (s : EditorState) :
    schedStep s .completeErr =
      if s.isGenerating then
        ({ s with isGenerating := false,
                  outstanding := s.outstanding - 1 }, 0)
      else (s, 0) := rfl

theorem schedStep_frame (s : EditorState) :
    schedStep s .frame = ({ s with applyingHighlights := false }, 0) := rfl

theorem triggerThought_inv {s : EditorState}
    (h : s.outstanding = if s.isGenerating then 1 else 0) :
    (triggerThought s).1.outstanding =
      if (triggerThought s).1.isGenerating then 1 else 0 := by
  unfold triggerThought
  by_cases h1 : (getEditorText s).length < MIN_TEXT_LENGTH
  · rw [if_pos h1]; exact h
  · rw [if_neg h1]
    by_cases h2 : (s.isGenerating || !s.engineLoaded) = true
    · rw [if_pos h2]; exact h
    · rw [if_neg h2]
      have hg : s.isGenerating = false := by
        cases hgen : s.isGenerating with
        | true => exact absurd (by rw [hgen]; rfl) h2
        | false => rfl
      rw [hg] at h
      show s.outstanding + 1 = if true then 1 else 0
      simp at h
      simp [h]

theorem triggerThought_thought (s : EditorState) :
    (triggerThought s).1.thought = s.thought := by
  unfold triggerThought
  by_cases h1 : (getEditorText s).length < MIN_TEXT_LENGTH
  · rw [if_pos h1]
  · rw [if_neg h1]
    by_cases h2 : (s.isGenerating || !s.engineLoaded) = true
    · rw [if_pos h2]
    · rw [if_neg h2]

theorem reachable_outstanding :
    ∀ s : EditorState, Reachable s →
      s.outstanding = if s.isGenerating then 1 else 0 := by
  intro s h
  induction h with
  | init => rfl
  | @step s' e hR ih =>
    cases e with
    | input nt =>
      rw [schedStep_input]
      by_cases hA : s'.applyingHighlights = true
      · rw [if_pos hA]; exact ih
      · rw [if_neg hA]; exact ih
    | timerFire =>
      rw [schedStep_timerFire]
      by_cases hT : s'.debounceTimer = true
      · rw [if_pos hT]
        exact triggerThought_inv ih
      · rw [if_neg hT]; exact ih
    | click =>
      rw [schedStep_click]
      exact triggerThought_inv ih
    | engineLoad =>
      rw [schedStep_engineLoad]
      exact ih
    | completeOk raw =>
      rw [schedStep_completeOk]
      by_cases hG : s'.isGenerating = true
      · rw [if_pos hG]
        rw [hG] at ih
        show s'.outstanding - 1 = if false then 1 else 0
        simp at ih
        simp [ih]
      · rw [if_neg hG]; exact ih
    | completeErr =>
      rw [schedStep_completeErr]
      by_cases hG : s'.isGenerating = true
      · rw [if_pos hG]
        rw [hG] at ih
        show s'.outstanding - 1 = if false then 1 else 0
        simp at ih
        simp [ih]
      · rw [if_neg hG]; exact ih
    | frame =>
      rw [schedStep_frame]
      exact ih

/-- C3: a trigger (timer fire or manual) while a request is in flight, or
with editor text below `MIN_TEXT_LENGTH`, issues no inference request and
leaves the state unchanged; consequently, in every reachable state at most
one inference request is outstanding. -/
theorem C3_trigger_gating :
    (∀ s : EditorState,
      (s.isGenerating = true ∨
        (getEditorText s).length < MIN_TEXT_LENGTH) →
      triggerThought s = (s, 0)) ∧
    (∀ s : EditorState, Reachable s → s.outstanding ≤ 1) := by
  constructor
  · intro s h
    unfold triggerThought
    by_cases h1 : (getEditorText s).length < MIN_TEXT_LENGTH
    · rw [if_pos h1]
    · rw [if_neg h1]
      have hg : s.isGenerating = true := by
        rcases h with h | h
        · exact h
        · exact absurd h h1
      rw [if_pos (by rw [hg]; rfl)]
  · intro s h
    rw [reachable_outstanding s h]
    by_cases hg : s.isGenerating = true
    · rw [if_pos hg]
    · rw [if_neg hg]
      omega

/-- Witness for C3 at the initial state (empty editor text, no request in
flight). -/
theorem C3_trigger_gating_witness :
    triggerThought initState = (initState, 0) ∧
    initState.outstanding ≤ 1 :=
  ⟨C3_trigger_gating.1 initState (Or.inr (by decide)),
   C3_trigger_gating.2 initState Reachable.init⟩

/-- C10: in every reachable state, a stored `Thought` has a non-empty
question — an empty parsed question is replaced by the fixed default
before the `Thought` is stored. -/
theorem C10_thought_question_nonempty :
    ∀ s : EditorState, Reachable s →
      ∀ (q : List Char) (ss : List (List Char)),
        s.thought = some (q, ss) → q ≠ [] := by
  intro s h
  induction h with
  | init =>
    intro q ss hq
    exact absurd hq (by simp [initState])
  | @step s' e hR ih =>
    cases e with
    | input nt =>
      rw [schedStep_input]
      by_cases hA : s'.applyingHighlights = true
      · rw [if_pos hA]; exact ih
      · rw [if_neg hA]
        intro q ss hq
        exact absurd hq (by simp)
    | timerFire =>
      rw [schedStep_timerFire]
      by_cases hT : s'.debounceTimer = true
      · rw [if_pos hT]
        intro q ss hq
        rw [triggerThought_thought] at hq
        exact ih q ss hq
      · rw [if_neg hT]; exact ih
    | click =>
      rw [schedStep_click]
      intro q ss hq
      rw [triggerThought_thought] at hq
      exact ih q ss hq
    | engineLoad =>
      rw [schedStep_engineLoad]
      exact ih
    | completeOk raw =>
      rw [schedStep_completeOk]
      by_cases hG : s'.isGenerating = true
      · rw [if_pos hG]
        intro q ss hq
        have hqe : (if (parseThoughtResponse raw).1 = [] then defaultQuestion
            else (parseThoughtResponse raw).1) = q := by
          have := Option.some.inj hq
          exact congrArg Prod.fst this
        by_cases hp : (parseThoughtResponse raw).1 = []
        · rw [if_pos hp] at hqe
          rw [← hqe]
          decide
        · rw [if_neg hp] at hqe
          rw [← hqe]
          exact hp
      · rw [if_neg hG]; exact ih
    | completeErr =>
      rw [schedStep_completeErr]
      by_cases hG : s'.isGenerating = true
      · rw [if_pos hG]; exact ih
      · rw [if_neg hG]; exact ih
    | frame =>
      rw [schedStep_frame]
      exact ih

/-- Witness for C10 along a concrete event trace: load the engine, type a
25-character text, let the debounce timer fire, and complete the inference
with empty model output; the stored question is the non-empty default. -/
theorem C10_thought_question_nonempty_witness :
    (schedStep (schedStep (schedStep (schedStep initState Ev.engineLoad).1
        (Ev.input (List.replicate 25 'a'))).1 Ev.timerFire).1
      (Ev.completeOk [])).1.thought = some (defaultQuestion, []) ∧
    defaultQuestion ≠ [] := by
  refine ⟨rfl, ?_⟩
  have hr : Reachable (schedStep (schedStep (schedStep
      (schedStep initState Ev.engineLoad).1
      (Ev.input (List.replicate 25 'a'))).1 Ev.timerFire).1
      (Ev.completeOk [])).1 :=
    Reachable.step _ (Reachable.step _ (Reachable.step _
      (Reachable.step _ Reachable.init)))
  exact C10_thought_question_nonempty _ hr defaultQuestion [] rfl

end Clear
